import Mathlib

/-!
# disturbancesbsky: the reconciliation engine of `bot.go`

A shallow embedding of `Bot.tick`, `Bot.sendPostForStatus` and
`Bot.produceEmbedForDisturbance` (src/bot.go) over the checkpoint model of
src/bot_storage.go, followed by theorems about them.

Conventions of the embedding.

* A Go `string` whose bytes the code inspects (the post text, the line label,
  the message type, the status description) is a list of bytes, each a natural
  number (`Bytes`); `len` is `List.length` and `s[:n]` is `List.take n`.
  Identifiers, content ids and URIs, which the code only copies and compares,
  are `String`.
* `b.model.KnownDisturbances` is used by `tick` as a Go map keyed by the
  disturbance id (string index, comma-ok lookup, `delete`, `range` over keys),
  so it is an association list with distinct keys; the order of the list
  stands for the unspecified order in which `range` visits the keys.
  (bot_storage.go writes the type of the field as a slice of
  `KnownDisturbance`; every use in `tick` is a map operation.)
* The collaborators (disturbance source, publisher, link-preview fetcher,
  storage file, clock) are the fields of `World`; each answer may depend on
  everything that happened before in the iteration (the trace).
* Library functions whose code is outside the repository (time formatting,
  title casing, `fmt.Sprintf`) are the fields of `Lib`.
* `tick` mutates `b.model` in place and may return early with an error, so
  the embedding returns the error together with the state reached, and logs
  every fetch, publish and `Put` call in a trace, oldest first.
-/

namespace DisturbancesBsky

/-- A Go string seen as its bytes. -/
abbrev Bytes := List Nat

/-! ## Data model -/

/-- Modelled from the spec: the record `underlxclient.LineStatus`, whose
declaration is in the generated client package; the fields are the ones
`bot.go` reads, pointer fields being options. -/
structure LineStatus where
  Id : String
  Time : Option Nat
  Downtime : Option Bool
  MsgType : Option Bytes
  Status : Option Bytes
  OfficialSource : Option Bool
deriving DecidableEq, Repr

/-- Modelled from the spec: the record `underlxclient.Disturbance`, whose
declaration is in the generated client package; the fields are the ones
`bot.go` reads, pointer fields being options. -/
structure Disturbance where
  Id : String
  Line : Option Bytes
  Official : Option Bool
  Statuses : Option (List LineStatus)
deriving DecidableEq, Repr

/-- The record `KnownStatus` of bot_storage.go. -/
structure KnownStatus where
  ID : String
  BSkyPostCID : String
  BSkyPostURI : String
deriving DecidableEq, Repr

/-- The record `KnownDisturbance` of bot_storage.go. -/
structure KnownDisturbance where
  ID : String
  KnownStatuses : List KnownStatus
deriving DecidableEq, Repr

/-- The Go map from disturbance id to `KnownDisturbance` that `tick` reads and
writes. -/
abbrev DisturbanceMap := AList (fun _ : String => KnownDisturbance)

/-- The record `BotStorageModel` of bot_storage.go, the checkpoint. -/
structure BotStorageModel where
  KnownDisturbances : DisturbanceMap

instance : DecidableEq BotStorageModel := fun m₁ m₂ =>
  decidable_of_iff (m₁.KnownDisturbances.entries = m₂.KnownDisturbances.entries)
    ⟨fun h => by
      cases m₁
      cases m₂
      exact congrArg BotStorageModel.mk (AList.ext h),
     fun h => by rw [h]⟩

/-- The Go expression `m[id]`: the entry, or the zero value when absent. -/
def DisturbanceMap.index (m : DisturbanceMap) (id : String) : KnownDisturbance :=
  (m.lookup id).getD ⟨"", []⟩

/-- The record `atproto.RepoStrongRef`. -/
structure RepoStrongRef where
  Cid : String
  Uri : String
deriving DecidableEq, Repr

/-- The record `bsky.FeedPost_ReplyRef`. -/
structure ReplyRef where
  Root : RepoStrongRef
  Parent : RepoStrongRef
deriving DecidableEq, Repr

/-- The record `bsky.RichtextFacet_Link`. -/
structure FacetLink where
  LexiconTypeID : String
  Uri : String
deriving DecidableEq, Repr

/-- The record `bsky.RichtextFacet` with its byte slice and its features. -/
structure RichtextFacet where
  ByteStart : Nat
  ByteEnd : Nat
  Features : List FacetLink
deriving DecidableEq, Repr

/-- The record `bsky.EmbedExternal`; the thumbnail is the uploaded blob. -/
structure EmbedExternal where
  LexiconTypeID : String
  Uri : String
  Title : String
  Description : String
  Thumb : Option String
deriving DecidableEq, Repr

/-- The record `bsky.FeedPost`, with the fields `sendPostForStatus` sets. -/
structure FeedPost where
  LexiconTypeID : String
  CreatedAt : String
  Langs : List String
  Reply : Option ReplyRef
  Text : Bytes
  Facets : List RichtextFacet
  Embed : Option EmbedExternal
deriving DecidableEq, Repr

/-- The three places of `tick` that call `sendPostForStatus`. -/
inductive Pass where
  | disappearance
  | update
  | newDisturbance
deriving DecidableEq, Repr

/-- The three kinds of error `tick` returns, by the collaborator that failed. -/
inductive TickError where
  | source
  | publish
  | store
deriving DecidableEq, Repr

/-- One call to a collaborator, with its answer.  A `publish` is a call to
`bskyClient.Post`; it also records which loop made it, the checkpoint key of
the disturbance being processed, the `sentStatuses` argument and the status
of the enclosing `sendPostForStatus` call. -/
inductive Event where
  | fetch (id : String) (answer : Option Disturbance)
  | publish (pass : Pass) (key : String) (sent : List KnownStatus) (status : LineStatus)
      (post : FeedPost) (answer : Option (String × String))
  | put (model : BotStorageModel) (ok : Bool)
deriving DecidableEq

/-- The page the link-preview fetcher parsed: title, meta description and
`og:image` address. -/
structure PreviewPage where
  title : String
  description : String
  imageURL : String
deriving DecidableEq, Repr

/-- The collaborators.  `none` or `false` is a failed call (for the
source, also a response whose status is not 200). -/
structure World where
  listDisturbances : Option (List Disturbance)
  getDisturbance : List Event → String → Option Disturbance
  fetchPage : List Event → String → Option PreviewPage
  uploadImage : List Event → String → Option String
  post : List Event → FeedPost → Option (String × String)
  put : List Event → BotStorageModel → Bool
  now : List Event → Nat

/-- Library functions used by `sendPostForStatus`. -/
structure Lib where
  formatRFC3339 : Nat → String
  formatClock : String → Nat → Bytes
  title : Bytes → Bytes
  sprintf : String → String → String

/-- The configuration fields of `Bot`. -/
structure Bot where
  timestampLocation : String
  websiteLinkTemplate : String
  postLangs : List String

/-- The state of one run of `tick`: the in-memory model and the calls made. -/
structure TickState where
  model : BotStorageModel
  trace : List Event
deriving DecidableEq

/-! ## Post construction (`sendPostForStatus`) -/

/-- The Go function `strings.TrimPrefix`. -/
def trimPrefix (s pre : Bytes) : Bytes :=
  if pre.isPrefixOf s then s.drop pre.length else s

/-- The Go function `strings.Contains`. -/
def containsBytes (s sub : Bytes) : Bool :=
  s.tails.any (fun t => sub.isPrefixOf t)

/-- The bytes of `"Linha "`. -/
def strLinha : Bytes := [76, 105, 110, 104, 97, 32]

/-- The bytes of `"pt-ml-"`. -/
def strLinePrefix : Bytes := [112, 116, 45, 109, 108, 45]

/-- The bytes of `"HALT"`. -/
def strHalt : Bytes := [72, 65, 76, 84]

/-- The bytes of the green circle and a space. -/
def strGreen : Bytes := [240, 159, 159, 162, 32]

/-- The bytes of the red circle and a space. -/
def strRed : Bytes := [240, 159, 148, 180, 32]

/-- The bytes of the orange circle and a space. -/
def strOrange : Bytes := [240, 159, 159, 160, 32]

/-- The bytes of the marker appended on truncation: an opening bracket, the
horizontal ellipsis U+2026 and a closing bracket. -/
def strEllipsis : Bytes := [40, 226, 128, 166, 41]

/-- Whether `lo.FromPtr(status.OfficialSource)` is true. -/
def LineStatus.official (s : LineStatus) : Bool := s.OfficialSource.getD false

/-- Whether `lo.FromPtr(disturbance.Official)` is true. -/
def Disturbance.official (d : Disturbance) : Bool := d.Official.getD false

/-- The value of `lo.FromPtr(disturbance.Statuses)`. -/
def Disturbance.statuses (d : Disturbance) : List LineStatus := d.Statuses.getD []

/-- The text `sendPostForStatus` builds in `textBuilder` (lines 227-250). -/
def constructedText (L : Lib) (b : Bot) (disturbance : Disturbance) (status : LineStatus) :
    Bytes :=
  (match disturbance.Line with
    | some line => strLinha ++ L.title (trimPrefix line strLinePrefix) ++ [32]
    | none => [])
  ++ [40] ++ L.formatClock b.timestampLocation (status.Time.getD 0) ++ [41, 58, 32]
  ++ (if !(status.Downtime.getD false) then strGreen
      else if containsBytes (status.MsgType.getD []) strHalt then strRed
      else strOrange)
  ++ status.Status.getD []

/-- The reply reference of lines 214-225: none for an empty `sentStatuses`,
else root = first and parent = last element. -/
def replyRef (sentStatuses : List KnownStatus) : Option ReplyRef :=
  match sentStatuses.head?, sentStatuses.getLast? with
  | some first, some last =>
      some { Root := ⟨first.BSkyPostCID, first.BSkyPostURI⟩,
             Parent := ⟨last.BSkyPostCID, last.BSkyPostURI⟩ }
  | _, _ => none

/-- The post as `sendPostForStatus` has it before the embed is attached
(lines 208-271). -/
def buildPost (L : Lib) (b : Bot) (now : Nat) (sentStatuses : List KnownStatus)
    (disturbance : Disturbance) (status : LineStatus) : FeedPost :=
  let text := constructedText L b disturbance status
  { LexiconTypeID := "app.bsky.feed.post"
    CreatedAt := L.formatRFC3339 (status.Time.getD now)
    Langs := b.postLangs
    Reply := replyRef sentStatuses
    Text := if text.length > 300 then text.take 295 ++ strEllipsis else text
    Facets :=
      if text.length > 300 then
        [{ ByteStart := 295, ByteEnd := 300,
           Features := [{ LexiconTypeID := "app.bsky.richtext.facet#link",
                          Uri := L.sprintf b.websiteLinkTemplate disturbance.Id }] }]
      else []
    Embed := none }

/-- The function `Bot.produceEmbedForDisturbance` (lines 293-328); `none` is
an error return. -/
def produceEmbedForDisturbance (L : Lib) (b : Bot) (w : World) (history : List Event)
    (id : String) : Option EmbedExternal :=
  let uri := L.sprintf b.websiteLinkTemplate id
  match w.fetchPage history uri with
  | none => none
  | some page =>
    if page.imageURL.length > 0 then
      match w.uploadImage history page.imageURL with
      | none => none
      | some image =>
        some { LexiconTypeID := "app.bsky.embed.external", Uri := uri, Title := page.title,
               Description := page.description, Thumb := some image }
    else
      some { LexiconTypeID := "app.bsky.embed.external", Uri := uri, Title := page.title,
             Description := page.description, Thumb := none }

/-- The function `Bot.sendPostForStatus` (lines 207-291).  `pass` and `key`
only label the trace entry.  `none` is an error return. -/
def sendPostForStatus (L : Lib) (b : Bot) (w : World) (pass : Pass) (key : String)
    (sentStatuses : List KnownStatus) (disturbance : Disturbance) (status : LineStatus)
    (st : TickState) : Option KnownStatus × TickState :=
  let post := buildPost L b (w.now st.trace) sentStatuses disturbance status
  match produceEmbedForDisturbance L b w st.trace disturbance.Id with
  | none => (none, st)
  | some embed =>
    let post := { post with Embed := some embed }
    let answer := w.post st.trace post
    let st1 : TickState :=
      { st with trace := st.trace ++ [Event.publish pass key sentStatuses status post answer] }
    match answer with
    | none => (none, st1)
    | some (cid, uri) => (some ⟨status.Id, cid, uri⟩, st1)

/-! ## One iteration (`tick`) -/

/-- The call `b.storage.Put(b.model)` after the model became `m`. -/
def putModel (w : World) (m : BotStorageModel) (st : TickState) : Bool × TickState :=
  let ok := w.put st.trace m
  (ok, { model := m, trace := st.trace ++ [Event.put m ok] })

/-- The loop of lines 109-130 over `newStatuses`, for a disappeared
disturbance; `knownStatuses` is the local variable of that name. -/
def drainDisappeared (L : Lib) (b : Bot) (w : World) (knownDisturbanceID : String)
    (disturbance : Disturbance) :
    List LineStatus → List KnownStatus → TickState → Option TickError × TickState
  | [], _, st => (none, st)
  | newStatus :: rest, knownStatuses, st =>
    if !newStatus.official then
      drainDisappeared L b w knownDisturbanceID disturbance rest knownStatuses st
    else
      match sendPostForStatus L b w Pass.disappearance knownDisturbanceID knownStatuses
          disturbance newStatus st with
      | (none, st1) => (some TickError.publish, st1)
      | (some knownStatus, st1) =>
        let knownStatuses := knownStatuses ++ [knownStatus]
        let d := st1.model.KnownDisturbances.index knownDisturbanceID
        let d := { d with KnownStatuses := knownStatuses }
        let m : BotStorageModel :=
          ⟨st1.model.KnownDisturbances.insert knownDisturbanceID d⟩
        match putModel w m st1 with
        | (false, st2) => (some TickError.store, st2)
        | (true, st2) =>
          drainDisappeared L b w knownDisturbanceID disturbance rest knownStatuses st2

/-- The loops of lines 152-168 (`pass = update`, `key = disturbance.Id`) and
lines 183-200 (`pass = newDisturbance`, `key = knownDisturbance.ID`);
`knownDisturbance` is the local variable of that name. -/
def drainTracked (L : Lib) (b : Bot) (w : World) (pass : Pass) (key : String)
    (disturbance : Disturbance) :
    List LineStatus → KnownDisturbance → TickState → Option TickError × TickState
  | [], _, st => (none, st)
  | newStatus :: rest, knownDisturbance, st =>
    if !newStatus.official then
      drainTracked L b w pass key disturbance rest knownDisturbance st
    else
      match sendPostForStatus L b w pass key knownDisturbance.KnownStatuses
          disturbance newStatus st with
      | (none, st1) => (some TickError.publish, st1)
      | (some knownStatus, st1) =>
        let knownDisturbance : KnownDisturbance :=
          { knownDisturbance with
            KnownStatuses := knownDisturbance.KnownStatuses ++ [knownStatus] }
        let m : BotStorageModel := ⟨st1.model.KnownDisturbances.insert key knownDisturbance⟩
        match putModel w m st1 with
        | (false, st2) => (some TickError.store, st2)
        | (true, st2) => drainTracked L b w pass key disturbance rest knownDisturbance st2

/-- The loop of lines 90-141 over the keys of the checkpoint; `seen` is
`seenDisturbancesSet`. -/
def disappearancePass (L : Lib) (b : Bot) (w : World) (seen : List String) :
    List String → TickState → Option TickError × TickState
  | [], st => (none, st)
  | knownDisturbanceID :: rest, st =>
    if knownDisturbanceID ∈ seen then disappearancePass L b w seen rest st
    else
      let answer := w.getDisturbance st.trace knownDisturbanceID
      let st0 : TickState :=
        { st with trace := st.trace ++ [Event.fetch knownDisturbanceID answer] }
      match answer with
      | none => (some TickError.source, st0)
      | some disturbance =>
        let updatedStatuses := disturbance.statuses
        let knownStatuses := (st0.model.KnownDisturbances.index knownDisturbanceID).KnownStatuses
        let newStatuses :=
          updatedStatuses.drop (min updatedStatuses.length knownStatuses.length)
        match drainDisappeared L b w knownDisturbanceID disturbance newStatuses knownStatuses
            st0 with
        | (some e, st1) => (some e, st1)
        | (none, st1) =>
          let m : BotStorageModel := ⟨st1.model.KnownDisturbances.erase knownDisturbanceID⟩
          match putModel w m st1 with
          | (false, st2) => (some TickError.store, st2)
          | (true, st2) => disappearancePass L b w seen rest st2

/-- The loop of lines 143-202 over the ongoing feed. -/
def feedPass (L : Lib) (b : Bot) (w : World) :
    List Disturbance → TickState → Option TickError × TickState
  | [], st => (none, st)
  | disturbance :: rest, st =>
    if !disturbance.official then feedPass L b w rest st
    else
      match st.model.KnownDisturbances.lookup disturbance.Id with
      | some knownDisturbance =>
        let updatedStatuses := disturbance.statuses
        let newStatuses :=
          updatedStatuses.drop (min updatedStatuses.length knownDisturbance.KnownStatuses.length)
        match drainTracked L b w Pass.update disturbance.Id disturbance newStatuses
            knownDisturbance st with
        | (some e, st1) => (some e, st1)
        | (none, st1) => feedPass L b w rest st1
      | none =>
        let knownDisturbance : KnownDisturbance := { ID := disturbance.Id, KnownStatuses := [] }
        let m : BotStorageModel :=
          ⟨st.model.KnownDisturbances.insert knownDisturbance.ID knownDisturbance⟩
        match putModel w m st with
        | (false, st0) => (some TickError.store, st0)
        | (true, st0) =>
          match drainTracked L b w Pass.newDisturbance knownDisturbance.ID disturbance
              disturbance.statuses knownDisturbance st0 with
          | (some e, st1) => (some e, st1)
          | (none, st1) => feedPass L b w rest st1

/-- The set `seenDisturbancesSet` of lines 80-88, as the list of its members. -/
def seenDisturbances (feed : List Disturbance) : List String :=
  (feed.filter (fun d => d.official)).map (fun d => d.Id)

/-- The function `Bot.tick` (lines 68-205), started with `b.model = model`:
the error it returns (`none` for nil) and the state it leaves. -/
def tick (L : Lib) (b : Bot) (w : World) (model : BotStorageModel) :
    Option TickError × TickState :=
  match w.listDisturbances with
  | none => (some TickError.source, ⟨model, []⟩)
  | some feed =>
    match disappearancePass L b w (seenDisturbances feed) model.KnownDisturbances.keys
        ⟨model, []⟩ with
    | (some e, st) => (some e, st)
    | (none, st) => feedPass L b w feed st


/-! ## Well-formed text -/

/-- One step of a UTF-8 validity scan of a byte string, as Go's `utf8.Valid`
decides it (RFC 3629: no overlong forms, no surrogates, at most U+10FFFF).
`pending` continuation bytes are still expected, the next of them within
`lo..hi`. -/
def utf8Scan : Nat → Nat → Nat → Bytes → Bool
  | 0, _, _, [] => true
  | _ + 1, _, _, [] => false
  | 0, _, _, c :: rest =>
    if c < 128 then utf8Scan 0 128 191 rest
    else if 194 ≤ c ∧ c ≤ 223 then utf8Scan 1 128 191 rest
    else if c = 224 then utf8Scan 2 160 191 rest
    else if (225 ≤ c ∧ c ≤ 236) ∨ c = 238 ∨ c = 239 then utf8Scan 2 128 191 rest
    else if c = 237 then utf8Scan 2 128 159 rest
    else if c = 240 then utf8Scan 3 144 191 rest
    else if 241 ≤ c ∧ c ≤ 243 then utf8Scan 3 128 191 rest
    else if c = 244 then utf8Scan 3 128 143 rest
    else false
  | pending + 1, lo, hi, c :: rest =>
    if lo ≤ c ∧ c ≤ hi then utf8Scan pending 128 191 rest else false

/-- Whether a byte string is valid UTF-8. -/
def validUTF8 (s : Bytes) : Bool := utf8Scan 0 128 191 s

/-! ## Sample collaborators for concrete runs -/

/-- Library stand-ins: the clock prints `15:04`, title casing changes
nothing, the template is a prefix of the link. -/
def sampleLib : Lib :=
  { formatRFC3339 := fun _ => "t"
    formatClock := fun _ _ => [49, 53, 58, 48, 52]
    title := fun s => s
    sprintf := fun template id => template ++ id }

/-- A sample configuration. -/
def sampleBot : Bot :=
  { timestampLocation := "Europe/Lisbon"
    websiteLinkTemplate := "https://example.org/d/"
    postLangs := ["pt"] }

/-- A world in which every call succeeds; the n-th event of the iteration
being a publish, it answers with content id `c` and location `u` followed
by n in unary. -/
def sampleWorld (feed : List Disturbance) (byId : String → Option Disturbance) : World :=
  { listDisturbances := some feed
    getDisturbance := fun _ id => byId id
    fetchPage := fun _ _ => some ⟨"title", "description", ""⟩
    uploadImage := fun _ _ => none
    post := fun history _ =>
      some (String.mk ('c' :: List.replicate history.length 'i'),
            String.mk ('u' :: List.replicate history.length 'i'))
    put := fun _ _ => true
    now := fun _ => 0 }

/-- An officially-sourced status with a description of `n` bytes `a`. -/
def longStatus (n : Nat) : LineStatus :=
  ⟨"s1", some 0, some true, some [72, 65, 76, 84], some (List.replicate n 97), some true⟩

/-- A disturbance without line label. -/
def plainDisturbance (id : String) (statuses : List LineStatus) : Disturbance :=
  ⟨id, none, some true, some statuses⟩

/-! ## What one call of `sendPostForStatus` does -/

/-- The post `sendPostForStatus` hands to the publisher once the embed `e` is
attached. -/
def postWithEmbed (L : Lib) (b : Bot) (w : World) (sent : List KnownStatus) (d : Disturbance)
    (s : LineStatus) (st : TickState) (e : EmbedExternal) : FeedPost :=
  { (buildPost L b (w.now st.trace) sent d s) with Embed := some e }

/-- The known status `sendPostForStatus` returns for a publisher answer. -/
def knownStatusOf (s : LineStatus) (r : String × String) : KnownStatus := ⟨s.Id, r.1, r.2⟩

/-! ## Reading a trace -/

/-- The publish calls of a trace, oldest first: the loop that made the call,
the checkpoint key of the disturbance and the status posted. -/
def publishedOf : List Event → List (Pass × String × LineStatus)
  | [] => []
  | Event.publish pass key _ status _ _ :: rest => (pass, key, status) :: publishedOf rest
  | _ :: rest => publishedOf rest

/-- The posts handed to the publisher in a trace, oldest first. -/
def postsOf : List Event → List FeedPost
  | [] => []
  | Event.publish _ _ _ _ post _ :: rest => post :: postsOf rest
  | _ :: rest => postsOf rest

/-- A status with identifier `id` and the given official-source flag. -/
def sampleStatus (id : String) (official : Bool) : LineStatus :=
  ⟨id, some 0, some true, none, some [111, 107], some official⟩

/-- A checkpoint with one tracked disturbance. -/
def sampleCheckpoint (id : String) (known : List KnownStatus) : BotStorageModel :=
  ⟨AList.singleton id ⟨id, known⟩⟩

/-- A status whose description is 280 bytes `a`, the two bytes of `é`
(U+00E9) and 10 more bytes `a`. -/
def accentStatus : LineStatus :=
  ⟨"s1", some 0, some false, none,
    some (List.replicate 280 97 ++ [195, 169] ++ List.replicate 10 97), some true⟩

/-! ## The steps of `tick`, as state transformers

Each loop of `tick` advances the state by one of the following steps; the
proof rules below reduce a property of a whole run to its preservation by
these steps. -/

/-- The entry `b.model.KnownDisturbances[key]` of a state. -/
def TickState.entry (st : TickState) (key : String) : KnownDisturbance :=
  st.model.KnownDisturbances.index key

/-- The publish call made for status `s` of disturbance `d` in state `st`,
the embed being `e` and the publisher answering `ans`. -/
def publishEvent (L : Lib) (b : Bot) (w : World) (pass : Pass) (key : String) (d : Disturbance)
    (s : LineStatus) (st : TickState) (e : EmbedExternal) (ans : Option (String × String)) :
    Event :=
  Event.publish pass key (st.entry key).KnownStatuses s
    (postWithEmbed L b w (st.entry key).KnownStatuses d s st e) ans

/-- The state after a publish call that failed. -/
def afterPublishFail (L : Lib) (b : Bot) (w : World) (pass : Pass) (key : String)
    (d : Disturbance) (s : LineStatus) (st : TickState) (e : EmbedExternal) : TickState :=
  ⟨st.model, st.trace ++ [publishEvent L b w pass key d s st e none]⟩

/-- The model after the known status of a successful publish was appended
to the entry of `key`. -/
def modelWithPost (key : String) (s : LineStatus) (st : TickState) (r : String × String) :
    BotStorageModel :=
  ⟨st.model.KnownDisturbances.insert key
    ⟨(st.entry key).ID, (st.entry key).KnownStatuses ++ [knownStatusOf s r]⟩⟩

/-- The state after a publish call answered `r`, the entry of `key` was
extended and `Put` returned `ok`. -/
def afterPublishPut (L : Lib) (b : Bot) (w : World) (pass : Pass) (key : String)
    (d : Disturbance) (s : LineStatus) (st : TickState) (e : EmbedExternal)
    (r : String × String) (ok : Bool) : TickState :=
  ⟨modelWithPost key s st r,
   st.trace ++ [publishEvent L b w pass key d s st e (some r),
                Event.put (modelWithPost key s st r) ok]⟩

/-- The state after the by-id fetch of `id` was answered. -/
def afterFetch (st : TickState) (id : String) (answer : Option Disturbance) : TickState :=
  ⟨st.model, st.trace ++ [Event.fetch id answer]⟩

/-- The state after the entry of `id` was deleted and `Put` returned `ok`. -/
def afterErase (st : TickState) (id : String) (ok : Bool) : TickState :=
  ⟨⟨st.model.KnownDisturbances.erase id⟩,
   st.trace ++ [Event.put ⟨st.model.KnownDisturbances.erase id⟩ ok]⟩

/-- The state after an empty entry was created for `id` and `Put` returned
`ok`. -/
def afterCreate (st : TickState) (id : String) (ok : Bool) : TickState :=
  ⟨⟨st.model.KnownDisturbances.insert id ⟨id, []⟩⟩,
   st.trace ++ [Event.put ⟨st.model.KnownDisturbances.insert id ⟨id, []⟩⟩ ok]⟩

/-- The statuses a drain loop visits: the upstream list from index
`min(len(upstream), len(KnownStatuses))` on. -/
def newStatusesOf (d : Disturbance) (known : List KnownStatus) : List LineStatus :=
  d.statuses.drop (min d.statuses.length known.length)

/-! ## Notions used in the statements -/

/-- The known status `x` is the record of a successful publish call of the
trace, made for the disturbance `key` and an officially-sourced status. -/
def PostedOfficially (tr : List Event) (key : String) (x : KnownStatus) : Prop :=
  ∃ pass sent s p r, Event.publish pass key sent s p (some r) ∈ tr ∧
    s.OfficialSource = some true ∧ x = ⟨s.Id, r.1, r.2⟩

/-- Every known status of the model `m` was already in the checkpoint `m0`
under the same key, or records an official post of the trace. -/
def RecordsOnlyOfficial (m0 : BotStorageModel) (tr : List Event) (m : BotStorageModel) : Prop :=
  ∀ key kd, m.KnownDisturbances.lookup key = some kd → ∀ x ∈ kd.KnownStatuses,
    x ∈ (m0.KnownDisturbances.index key).KnownStatuses ∨ PostedOfficially tr key x

/-- The invariant behind `RecordsOnlyOfficial`: it holds of the model in
memory and of every model handed to `Put`, and every publish call is for an
officially-sourced status. -/
def OfficialInv (m0 : BotStorageModel) (st : TickState) : Prop :=
  (∀ pass key sent s p ans, Event.publish pass key sent s p ans ∈ st.trace →
    s.OfficialSource = some true) ∧
  RecordsOnlyOfficial m0 st.trace st.model ∧
  (∀ m ok, Event.put m ok ∈ st.trace → RecordsOnlyOfficial m0 st.trace m)

/-- The model `m` holds `x` as the last known status of the disturbance
`key`. -/
def SavedLast (m : BotStorageModel) (key : String) (x : KnownStatus) : Prop :=
  ∃ kd, m.KnownDisturbances.lookup key = some kd ∧ kd.KnownStatuses.getLast? = some x

/-- Whether an event is a publish call. -/
def Event.isPublish : Event → Bool
  | Event.publish _ _ _ _ _ _ => true
  | _ => false

/-- Every publish call of the trace succeeded and is directly followed by a
completed `Put` of a model that holds its known status last. -/
def EveryPostSaved (tr : List Event) : Prop :=
  ∀ a pass key sent s p ans c, tr = a ++ Event.publish pass key sent s p ans :: c →
    ∃ r m c', ans = some r ∧ c = Event.put m true :: c' ∧ SavedLast m key ⟨s.Id, r.1, r.2⟩

/-- Every publish call of the trace that is followed by another publish call
succeeded and is directly followed by a completed `Put` of a model that
holds its known status last. -/
def SavedBeforeNextPost (tr : List Event) : Prop :=
  ∀ a pass key sent s p ans mid e c,
    tr = a ++ Event.publish pass key sent s p ans :: (mid ++ e :: c) → e.isPublish = true →
    ∃ r m mid', ans = some r ∧ mid = Event.put m true :: mid' ∧
      SavedLast m key ⟨s.Id, r.1, r.2⟩

/-- The known statuses returned by the successful publish calls of a trace
for the disturbance `key`, oldest first. -/
def resultsOf (key : String) : List Event → List KnownStatus
  | [] => []
  | Event.publish _ k _ s _ (some r) :: rest =>
    if k = key then ⟨s.Id, r.1, r.2⟩ :: resultsOf key rest else resultsOf key rest
  | _ :: rest => resultsOf key rest

/-- The chain of the disturbance `key` after the events `tr` of a run started
from the checkpoint `m0`: the known statuses of the checkpoint entry followed
by the records of the posts made in the run. -/
def chainAt (m0 : BotStorageModel) (key : String) (tr : List Event) : List KnownStatus :=
  (m0.KnownDisturbances.index key).KnownStatuses ++ resultsOf key tr

/-- What the event `e`, coming after the events `a`, must satisfy: a publish
call is made with the chain so far as `sentStatuses` and replies to it, and a
model handed to `Put` holds the chain so far of every disturbance it
tracks. -/
def ChainedAt (m0 : BotStorageModel) (a : List Event) : Event → Prop
  | Event.publish _ key sent _ p _ => sent = chainAt m0 key a ∧ p.Reply = replyRef sent
  | Event.put m _ => ∀ key, key ∈ m.KnownDisturbances →
      (m.KnownDisturbances.index key).KnownStatuses = chainAt m0 key a
  | Event.fetch _ _ => True

/-- Every event of the trace satisfies `ChainedAt` at its position. -/
def Chained (m0 : BotStorageModel) (tr : List Event) : Prop :=
  ∀ a e c, tr = a ++ e :: c → ChainedAt m0 a e

/-- The invariant of a run with respect to the chains: the trace is chained,
the entry of every disturbance still to be handled (`alive`) is its chain,
and only such disturbances are tracked. -/
def ChainInv (m0 : BotStorageModel) (alive : String → Prop) (st : TickState) : Prop :=
  Chained m0 st.trace ∧
  (∀ key, alive key → (st.entry key).KnownStatuses = chainAt m0 key st.trace) ∧
  (∀ key, key ∈ st.model.KnownDisturbances → alive key)

/-- The publish calls of a trace in the order they were made: whether the
call came from the disappearance branch, the checkpoint key of the
disturbance and the status posted. -/
def postedOrder : List Event → List (Bool × String × LineStatus)
  | [] => []
  | Event.publish pass key _ s _ _ :: rest =>
    (decide (pass = Pass.disappearance), key, s) :: postedOrder rest
  | _ :: rest => postedOrder rest

/-- The disturbance records the by-id fetches of a trace returned, oldest
first, each with the identifier asked for. -/
def fetchedOf : List Event → List (String × Disturbance)
  | [] => []
  | Event.fetch id (some d) :: rest => (id, d) :: fetchedOf rest
  | _ :: rest => fetchedOf rest

/-- The officially-sourced statuses among `statuses`, in upstream order,
labelled with the branch and the disturbance key. -/
def eligibleOf (disappeared : Bool) (key : String) (statuses : List LineStatus) :
    List (Bool × String × LineStatus) :=
  (statuses.filter (fun s => s.official)).map (fun s => (disappeared, key, s))

/-- The posts the disappearance branch can make, in order: for each fetched
record in fetch order, its officially-sourced statuses in upstream order. -/
def disappearedCandidates (tr : List Event) : List (Bool × String × LineStatus) :=
  (fetchedOf tr).flatMap (fun x => eligibleOf true x.1 x.2.statuses)

/-- The posts the loop over the feed can make, in order: for each
officially-flagged disturbance in feed order, its officially-sourced
statuses in upstream order. -/
def feedCandidates (feed : List Disturbance) : List (Bool × String × LineStatus) :=
  (feed.filter (fun d => d.official)).flatMap (fun d => eligibleOf false d.Id d.statuses)

/-- The events of a complete drain of the disappeared disturbance `id`: for
each status in turn a successful publish call made with the chain so far as
`sentStatuses`, whose post replies to that chain (`replyRef`), directly
followed by a completed `Put` of a model whose entry for `id` is the chain
extended by the record of the post.  `final` is the chain at the end. -/
def DrainedOnto (id : String) :
    List KnownStatus → List LineStatus → List Event → List KnownStatus → Prop
  | chain, [], evs, final => evs = [] ∧ final = chain
  | chain, s :: ss, evs, final =>
    ∃ p r m rest,
      evs = Event.publish Pass.disappearance id chain s p (some r) :: Event.put m true :: rest ∧
      p.Reply = replyRef chain ∧
      (∃ kd, m.KnownDisturbances.lookup id = some kd ∧
        kd.KnownStatuses = chain ++ [⟨s.Id, r.1, r.2⟩]) ∧
      DrainedOnto id (chain ++ [⟨s.Id, r.1, r.2⟩]) ss rest final

/-- Whether an event is a publish call for the disturbance `id`. -/
def Event.publishesFor (id : String) : Event → Bool
  | Event.publish _ key _ _ _ _ => decide (key = id)
  | _ => false

/-- An event that is a `Put` hands over a model that tracks `id`. -/
def Event.savesWith (id : String) : Event → Prop
  | Event.put m _ => id ∈ m.KnownDisturbances
  | _ => True

/-- The officially-sourced statuses the drain of record `d` visits when the
entry holds `known`. -/
def drainList (d : Disturbance) (known : List KnownStatus) : List LineStatus :=
  (newStatusesOf d known).filter (fun s => s.official)

/-- The trace shows the disappeared disturbance `id` fetched, drained onto
the chain of its checkpoint entry and only then deleted. -/
def DrainedThenDeleted (m0 : BotStorageModel) (id : String) (tr : List Event) : Prop :=
  ∃ d pre evs final mdel post,
    tr = pre ++ Event.fetch id (some d) :: (evs ++ Event.put mdel true :: post) ∧
    DrainedOnto id (m0.KnownDisturbances.index id).KnownStatuses
      (drainList d (m0.KnownDisturbances.index id).KnownStatuses) evs final ∧
    id ∉ mdel.KnownDisturbances ∧
    (∀ e ∈ pre, e.publishesFor id = false ∧ e.savesWith id) ∧
    (∀ e ∈ post, e.publishesFor id = false)

/-- The run has not reached the disturbance `id` yet: its entry is the one of
the checkpoint, no post was made for it and every model saved tracks it. -/
def NotYetDrained (m0 : BotStorageModel) (id : String) (st : TickState) : Prop :=
  st.model.KnownDisturbances.lookup id = m0.KnownDisturbances.lookup id ∧
  ∀ e ∈ st.trace, e.publishesFor id = false ∧ e.savesWith id

/-- The run is draining the disturbance `id`, of fetched record `d`, with
the statuses `ss` still to visit. -/
def Draining (m0 : BotStorageModel) (id : String) (d : Disturbance) (ss : List LineStatus)
    (st : TickState) : Prop :=
  ∃ pre evs done final,
    st.trace = pre ++ Event.fetch id (some d) :: evs ∧
    (∀ e ∈ pre, e.publishesFor id = false ∧ e.savesWith id) ∧
    DrainedOnto id (m0.KnownDisturbances.index id).KnownStatuses done evs final ∧
    (st.entry id).KnownStatuses = final ∧
    done ++ ss.filter (fun s => s.official)
      = drainList d (m0.KnownDisturbances.index id).KnownStatuses

/-- The run is not handling the disturbance `id`: either `id` is still among
the keys to visit and untouched, or it was drained and deleted. -/
def Elsewhere (m0 : BotStorageModel) (id : String) (rest : List String) (st : TickState) :
    Prop :=
  (id ∈ rest ∧ NotYetDrained m0 id st) ∨ (id ∉ rest ∧ DrainedThenDeleted m0 id st.trace)

/-- A by-id source that knows one record. -/
def byIdOnly (id : String) (d : Disturbance) : String → Option Disturbance :=
  fun asked => if asked = id then some d else none

/-- A by-id source that knows no record. -/
def byIdNone : String → Option Disturbance := fun _ => none

/-- A feed listing a disturbance seen for the first time before a tracked
one that has a new status. -/
def feedNewThenTracked : List Disturbance :=
  [plainDisturbance "d2" [sampleStatus "x" true],
   plainDisturbance "d1" [sampleStatus "a" true, sampleStatus "b" true]]

/-- The record of a disturbance that left the feed, with two officially
sourced statuses. -/
def goneRecord : Disturbance :=
  plainDisturbance "d1" [sampleStatus "a" true, sampleStatus "b" true]

/-- A world whose feed lists only `d2` and whose by-id source knows
`goneRecord`. -/
def worldWithGone : World :=
  sampleWorld [plainDisturbance "d2" [sampleStatus "x" true]] (byIdOnly "d1" goneRecord)

/-- A checkpoint tracking `d1` with its first status posted. -/
def checkpointOnePosted : BotStorageModel :=
  sampleCheckpoint "d1" [⟨"a", "c0", "u0"⟩]

/-- A world with an empty feed whose by-id source knows `d1` with three
officially-sourced statuses. -/
def worldGoneTwo : World :=
  sampleWorld [] (byIdOnly "d1" (plainDisturbance "d1"
    [sampleStatus "a" true, sampleStatus "b" true, sampleStatus "c" true]))
/-! # Theorems -/

theorem sendPostForStatus_cases (L : Lib) (b : Bot) (w : World) (pass : Pass) (key : String)
    (sent : List KnownStatus) (d : Disturbance) (s : LineStatus) (st : TickState) :
    sendPostForStatus L b w pass key sent d s st = (none, st) ∨
    ∃ e ans, sendPostForStatus L b w pass key sent d s st =
      (ans.map (knownStatusOf s),
       ⟨st.model, st.trace ++ [Event.publish pass key sent s (postWithEmbed L b w sent d s st e) ans]⟩) := by
  unfold sendPostForStatus
  cases he : produceEmbedForDisturbance L b w st.trace d.Id with
  | none => left; rfl
  | some e =>
    right
    refine ⟨e, w.post st.trace (postWithEmbed L b w sent d s st e), ?_⟩
    simp only []
    cases ha : w.post st.trace (postWithEmbed L b w sent d s st e) with
    | none =>
      simp only [postWithEmbed] at ha
      simp [ha, postWithEmbed]
    | some r =>
      obtain ⟨cid, uri⟩ := r
      simp only [postWithEmbed] at ha
      simp [ha, postWithEmbed, knownStatusOf]

/-- C6, amended. When the constructed text is longer than 300 bytes, the
text handed to the publisher is the first 295 bytes of the constructed text
followed by the marker, it has exactly 300 bytes (295 of content and the 5
bytes of the marker: two brackets around the 3-byte ellipsis character), its
last 5 bytes are the marker, and the post carries exactly one facet, over the
bytes 295..300, with one link whose URI is the website link template with
the disturbance id substituted. -/
theorem truncation_posted_text (L : Lib) (b : Bot) (w : World) (pass : Pass) (key : String)
    (sent : List KnownStatus) (d : Disturbance) (s : LineStatus) (st : TickState)
    (p : FeedPost) (ans : Option (String × String))
    (hlong : 300 < (constructedText L b d s).length)
    (hrun : (sendPostForStatus L b w pass key sent d s st).2.trace
      = st.trace ++ [Event.publish pass key sent s p ans]) :
    p.Text = (constructedText L b d s).take 295 ++ strEllipsis ∧
    p.Text.length = 300 ∧
    p.Text.drop 295 = strEllipsis ∧
    strEllipsis.length = 5 ∧
    p.Facets = [{ ByteStart := 295, ByteEnd := 300,
                  Features := [{ LexiconTypeID := "app.bsky.richtext.facet#link",
                                 Uri := L.sprintf b.websiteLinkTemplate d.Id }] }] := by
  have hlen : ((constructedText L b d s).take 295).length = 295 := by
    rw [List.length_take]; omega
  have hp : ∃ e, p = postWithEmbed L b w sent d s st e := by
    rcases sendPostForStatus_cases L b w pass key sent d s st with h | ⟨e, a, h⟩
    · rw [h] at hrun
      have := congrArg List.length hrun
      simp at this
    · rw [h] at hrun
      have h1 := List.append_cancel_left hrun
      simp only [List.cons.injEq, Event.publish.injEq, and_true, true_and] at h1
      exact ⟨e, h1.1.symm⟩
  obtain ⟨e, rfl⟩ := hp
  have ht : (postWithEmbed L b w sent d s st e).Text
      = (constructedText L b d s).take 295 ++ strEllipsis := by
    simp [postWithEmbed, buildPost, hlong]
  refine ⟨ht, ?_, ?_, rfl, ?_⟩
  · rw [ht, List.length_append, hlen]; rfl
  · rw [ht, List.drop_append_of_le_length (by omega), List.drop_eq_nil_of_le (by omega)]
    rfl
  · simp [postWithEmbed, buildPost, hlong]
/-! ## Proof rules for the loops of `tick` -/

theorem index_insert_self (m : DisturbanceMap) (key : String) (v : KnownDisturbance) :
    DisturbanceMap.index (m.insert key v) key = v := by
  simp [DisturbanceMap.index, AList.lookup_insert]

theorem index_of_lookup {m : DisturbanceMap} {key : String} {kd : KnownDisturbance}
    (h : m.lookup key = some kd) : m.index key = kd := by
  simp [DisturbanceMap.index, h]

theorem drainTracked_rule (L : Lib) (b : Bot) (w : World) (pass : Pass) (key : String)
    (d : Disturbance) (I : List LineStatus → TickState → Prop) (E : TickState → Prop)
    (hE : ∀ ss st, I ss st → E st)
    (hskip : ∀ s rest st, s.official = false → I (s :: rest) st → I rest st)
    (hfail : ∀ s rest st e, s.official = true → I (s :: rest) st →
      E (afterPublishFail L b w pass key d s st e))
    (hok : ∀ s rest st e r ok, s.official = true → I (s :: rest) st →
      (ok = false → E (afterPublishPut L b w pass key d s st e r ok)) ∧
      (ok = true → I rest (afterPublishPut L b w pass key d s st e r ok))) :
    ∀ ss kd st, st.model.KnownDisturbances.lookup key = some kd → I ss st →
      ((drainTracked L b w pass key d ss kd st).1 = none →
        I [] (drainTracked L b w pass key d ss kd st).2) ∧
      (∀ err, (drainTracked L b w pass key d ss kd st).1 = some err →
        E (drainTracked L b w pass key d ss kd st).2) := by
  intro ss
  induction ss with
  | nil =>
    intro kd st _ h
    simp only [drainTracked]
    exact ⟨fun _ => h, fun err herr => by simp at herr⟩
  | cons s rest ih =>
    intro kd st hkd h
    have hentry : st.entry key = kd := index_of_lookup hkd
    cases hoff : s.official with
    | false =>
      have : drainTracked L b w pass key d (s :: rest) kd st
          = drainTracked L b w pass key d rest kd st := by
        simp [drainTracked, hoff]
      rw [this]
      exact ih kd st hkd (hskip s rest st hoff h)
    | true =>
      rcases sendPostForStatus_cases L b w pass key kd.KnownStatuses d s st with hs | ⟨e, ans, hs⟩
      · have : drainTracked L b w pass key d (s :: rest) kd st = (some TickError.publish, st) := by
          simp [drainTracked, hoff, hs]
        rw [this]
        exact ⟨fun h0 => by simp at h0, fun _ _ => hE _ _ h⟩
      · cases ans with
        | none =>
          have : drainTracked L b w pass key d (s :: rest) kd st
              = (some TickError.publish, afterPublishFail L b w pass key d s st e) := by
            simp [drainTracked, hoff, hs, afterPublishFail, publishEvent, hentry]
          rw [this]
          exact ⟨fun h0 => by simp at h0, fun _ _ => hfail s rest st e hoff h⟩
        | some r =>
          have hobl := hok s rest st e r
            (w.put (st.trace ++ [publishEvent L b w pass key d s st e (some r)])
              (modelWithPost key s st r)) hoff h
          cases hput : w.put (st.trace ++ [publishEvent L b w pass key d s st e (some r)])
              (modelWithPost key s st r) with
          | false =>
            rw [hput] at hobl
            have : drainTracked L b w pass key d (s :: rest) kd st
              = (some TickError.store, afterPublishPut L b w pass key d s st e r false) := by
              simp only [publishEvent, modelWithPost, hentry] at hput
              simp [drainTracked, hoff, hs, putModel, hput, afterPublishPut, publishEvent,
                modelWithPost, hentry]
            rw [this]
            exact ⟨fun h0 => by simp at h0, fun _ _ => hobl.1 rfl⟩
          | true =>
            rw [hput] at hobl
            have : drainTracked L b w pass key d (s :: rest) kd st
              = drainTracked L b w pass key d rest
                  ⟨kd.ID, kd.KnownStatuses ++ [knownStatusOf s r]⟩
                  (afterPublishPut L b w pass key d s st e r true) := by
              simp only [publishEvent, modelWithPost, hentry] at hput
              simp [drainTracked, hoff, hs, putModel, hput, afterPublishPut, publishEvent,
                modelWithPost, hentry]
            rw [this]
            refine ih _ _ ?_ (hobl.2 rfl)
            simp [afterPublishPut, modelWithPost, hentry, AList.lookup_insert]

theorem drainDisappeared_rule (L : Lib) (b : Bot) (w : World) (key : String)
    (d : Disturbance) (I : List LineStatus → TickState → Prop) (E : TickState → Prop)
    (hE : ∀ ss st, I ss st → E st)
    (hskip : ∀ s rest st, s.official = false → I (s :: rest) st → I rest st)
    (hfail : ∀ s rest st e, s.official = true → I (s :: rest) st →
      E (afterPublishFail L b w Pass.disappearance key d s st e))
    (hok : ∀ s rest st e r ok, s.official = true → I (s :: rest) st →
      (ok = false → E (afterPublishPut L b w Pass.disappearance key d s st e r ok)) ∧
      (ok = true → I rest (afterPublishPut L b w Pass.disappearance key d s st e r ok))) :
    ∀ ss known st, (st.entry key).KnownStatuses = known → I ss st →
      ((drainDisappeared L b w key d ss known st).1 = none →
        I [] (drainDisappeared L b w key d ss known st).2) ∧
      (∀ err, (drainDisappeared L b w key d ss known st).1 = some err →
        E (drainDisappeared L b w key d ss known st).2) := by
  intro ss
  induction ss with
  | nil =>
    intro known st _ h
    simp only [drainDisappeared]
    exact ⟨fun _ => h, fun err herr => by simp at herr⟩
  | cons s rest ih =>
    intro known st hkn h
    cases hoff : s.official with
    | false =>
      have : drainDisappeared L b w key d (s :: rest) known st
          = drainDisappeared L b w key d rest known st := by
        simp [drainDisappeared, hoff]
      rw [this]
      exact ih known st hkn (hskip s rest st hoff h)
    | true =>
      rcases sendPostForStatus_cases L b w Pass.disappearance key known d s st with
        hs | ⟨e, ans, hs⟩
      · have : drainDisappeared L b w key d (s :: rest) known st
            = (some TickError.publish, st) := by
          simp [drainDisappeared, hoff, hs]
        rw [this]
        exact ⟨fun h0 => by simp at h0, fun _ _ => hE _ _ h⟩
      · cases ans with
        | none =>
          have : drainDisappeared L b w key d (s :: rest) known st
              = (some TickError.publish,
                  afterPublishFail L b w Pass.disappearance key d s st e) := by
            simp [drainDisappeared, hoff, hs, afterPublishFail, publishEvent, hkn]
          rw [this]
          exact ⟨fun h0 => by simp at h0, fun _ _ => hfail s rest st e hoff h⟩
        | some r =>
          have hobl := hok s rest st e r
            (w.put (st.trace ++ [publishEvent L b w Pass.disappearance key d s st e (some r)])
              (modelWithPost key s st r)) hoff h
          have hidx : st.model.KnownDisturbances.index key = st.entry key := rfl
          cases hput : w.put
              (st.trace ++ [publishEvent L b w Pass.disappearance key d s st e (some r)])
              (modelWithPost key s st r) with
          | false =>
            rw [hput] at hobl
            have : drainDisappeared L b w key d (s :: rest) known st
              = (some TickError.store,
                  afterPublishPut L b w Pass.disappearance key d s st e r false) := by
              simp only [publishEvent, modelWithPost, hkn] at hput
              simp [drainDisappeared, hoff, hs, putModel, hput, afterPublishPut, publishEvent,
                modelWithPost, hkn, hidx]
            rw [this]
            exact ⟨fun h0 => by simp at h0, fun _ _ => hobl.1 rfl⟩
          | true =>
            rw [hput] at hobl
            have : drainDisappeared L b w key d (s :: rest) known st
              = drainDisappeared L b w key d rest (known ++ [knownStatusOf s r])
                  (afterPublishPut L b w Pass.disappearance key d s st e r true) := by
              simp only [publishEvent, modelWithPost, hkn] at hput
              simp [drainDisappeared, hoff, hs, putModel, hput, afterPublishPut, publishEvent,
                modelWithPost, hkn, hidx]
            rw [this]
            refine ih _ _ ?_ (hobl.2 rfl)
            have hkn' : (st.model.KnownDisturbances.index key).KnownStatuses = known := hkn
            simp [afterPublishPut, modelWithPost, TickState.entry, index_insert_self, hkn']

theorem disappearancePass_rule (L : Lib) (b : Bot) (w : World) (seen : List String)
    (I : List String → TickState → Prop)
    (J : String → List String → Disturbance → List LineStatus → TickState → Prop)
    (E : TickState → Prop)
    (hskip : ∀ id rest st, id ∈ seen → I (id :: rest) st → I rest st)
    (hfetchFail : ∀ id rest st, id ∉ seen → I (id :: rest) st → E (afterFetch st id none))
    (henter : ∀ id rest st d, id ∉ seen → I (id :: rest) st →
      J id rest d (newStatusesOf d (st.entry id).KnownStatuses) (afterFetch st id (some d)))
    (hJE : ∀ id rest d ss st, J id rest d ss st → E st)
    (hJskip : ∀ id rest d s ss st, s.official = false → J id rest d (s :: ss) st →
      J id rest d ss st)
    (hJfail : ∀ id rest d s ss st e, s.official = true → J id rest d (s :: ss) st →
      E (afterPublishFail L b w Pass.disappearance id d s st e))
    (hJok : ∀ id rest d s ss st e r ok, s.official = true → J id rest d (s :: ss) st →
      (ok = false → E (afterPublishPut L b w Pass.disappearance id d s st e r ok)) ∧
      (ok = true → J id rest d ss (afterPublishPut L b w Pass.disappearance id d s st e r ok)))
    (hleave : ∀ id rest d st ok, J id rest d [] st →
      (ok = false → E (afterErase st id ok)) ∧ (ok = true → I rest (afterErase st id ok))) :
    ∀ ids st, I ids st →
      ((disappearancePass L b w seen ids st).1 = none →
        I [] (disappearancePass L b w seen ids st).2) ∧
      (∀ err, (disappearancePass L b w seen ids st).1 = some err →
        E (disappearancePass L b w seen ids st).2) := by
  intro ids
  induction ids with
  | nil =>
    intro st h
    simp only [disappearancePass]
    exact ⟨fun _ => h, fun err herr => by simp at herr⟩
  | cons id rest ih =>
    intro st h
    by_cases hseen : id ∈ seen
    · have : disappearancePass L b w seen (id :: rest) st
          = disappearancePass L b w seen rest st := by
        simp [disappearancePass, hseen]
      rw [this]
      exact ih st (hskip id rest st hseen h)
    · cases hget : w.getDisturbance st.trace id with
      | none =>
        have : disappearancePass L b w seen (id :: rest) st
            = (some TickError.source, afterFetch st id none) := by
          simp [disappearancePass, hseen, hget, afterFetch]
        rw [this]
        exact ⟨fun h0 => by simp at h0, fun _ _ => hfetchFail id rest st hseen h⟩
      | some d =>
        have hJ := henter id rest st d hseen h
        have hdrain := drainDisappeared_rule L b w id d (J id rest d) E
          (hJE id rest d) (hJskip id rest d) (hJfail id rest d) (hJok id rest d)
          (newStatusesOf d (st.entry id).KnownStatuses) (st.entry id).KnownStatuses
          (afterFetch st id (some d)) rfl hJ
        cases hres : drainDisappeared L b w id d
            (newStatusesOf d (st.entry id).KnownStatuses) (st.entry id).KnownStatuses
            (afterFetch st id (some d)) with
        | mk err st1 =>
          rw [hres] at hdrain
          cases err with
          | some err =>
            have : disappearancePass L b w seen (id :: rest) st = (some err, st1) := by
              simp only [afterFetch, newStatusesOf, TickState.entry] at hres
              simp [disappearancePass, hseen, hget, hres]
            rw [this]
            exact ⟨fun h0 => by simp at h0, fun _ _ => hdrain.2 err rfl⟩
          | none =>
            have hl := hleave id rest d st1 (w.put st1.trace
              ⟨st1.model.KnownDisturbances.erase id⟩) (hdrain.1 rfl)
            cases hput : w.put st1.trace ⟨st1.model.KnownDisturbances.erase id⟩ with
            | false =>
              rw [hput] at hl
              have : disappearancePass L b w seen (id :: rest) st
                  = (some TickError.store, afterErase st1 id false) := by
                simp only [afterFetch, newStatusesOf, TickState.entry] at hres
                simp [disappearancePass, hseen, hget, hres, putModel, hput, afterErase]
              rw [this]
              exact ⟨fun h0 => by simp at h0, fun _ _ => hl.1 rfl⟩
            | true =>
              rw [hput] at hl
              have : disappearancePass L b w seen (id :: rest) st
                  = disappearancePass L b w seen rest (afterErase st1 id true) := by
                simp only [afterFetch, newStatusesOf, TickState.entry] at hres
                simp [disappearancePass, hseen, hget, hres, putModel, hput, afterErase]
              rw [this]
              exact ih _ (hl.2 rfl)

theorem feedPass_rule (L : Lib) (b : Bot) (w : World)
    (I : List Disturbance → TickState → Prop)
    (J : Pass → Disturbance → List Disturbance → List LineStatus → TickState → Prop)
    (E : TickState → Prop)
    (hskip : ∀ d rest st, d.official = false → I (d :: rest) st → I rest st)
    (hupdate : ∀ d rest st kd, d.official = true → I (d :: rest) st →
      st.model.KnownDisturbances.lookup d.Id = some kd →
      J Pass.update d rest (newStatusesOf d kd.KnownStatuses) st)
    (hnew : ∀ d rest st ok, d.official = true → I (d :: rest) st →
      st.model.KnownDisturbances.lookup d.Id = none →
      (ok = false → E (afterCreate st d.Id ok)) ∧
      (ok = true → J Pass.newDisturbance d rest d.statuses (afterCreate st d.Id ok)))
    (hJE : ∀ pass d rest ss st, J pass d rest ss st → E st)
    (hJskip : ∀ pass d rest s ss st, s.official = false → J pass d rest (s :: ss) st →
      J pass d rest ss st)
    (hJfail : ∀ pass d rest s ss st e, s.official = true → J pass d rest (s :: ss) st →
      E (afterPublishFail L b w pass d.Id d s st e))
    (hJok : ∀ pass d rest s ss st e r ok, s.official = true → J pass d rest (s :: ss) st →
      (ok = false → E (afterPublishPut L b w pass d.Id d s st e r ok)) ∧
      (ok = true → J pass d rest ss (afterPublishPut L b w pass d.Id d s st e r ok)))
    (hleave : ∀ pass d rest st, J pass d rest [] st → I rest st) :
    ∀ feed st, I feed st →
      ((feedPass L b w feed st).1 = none → I [] (feedPass L b w feed st).2) ∧
      (∀ err, (feedPass L b w feed st).1 = some err → E (feedPass L b w feed st).2) := by
  intro feed
  induction feed with
  | nil =>
    intro st h
    simp only [feedPass]
    exact ⟨fun _ => h, fun err herr => by simp at herr⟩
  | cons d rest ih =>
    intro st h
    cases hoff : d.official with
    | false =>
      have : feedPass L b w (d :: rest) st = feedPass L b w rest st := by
        simp [feedPass, hoff]
      rw [this]
      exact ih st (hskip d rest st hoff h)
    | true =>
      cases hlk : st.model.KnownDisturbances.lookup d.Id with
      | some kd =>
        have hJ := hupdate d rest st kd hoff h hlk
        have hdrain := drainTracked_rule L b w Pass.update d.Id d (J Pass.update d rest) E
          (hJE Pass.update d rest) (hJskip Pass.update d rest) (hJfail Pass.update d rest)
          (hJok Pass.update d rest) (newStatusesOf d kd.KnownStatuses) kd st hlk hJ
        cases hres : drainTracked L b w Pass.update d.Id d
            (newStatusesOf d kd.KnownStatuses) kd st with
        | mk err st1 =>
          rw [hres] at hdrain
          simp only [newStatusesOf] at hres
          cases err with
          | some err =>
            have : feedPass L b w (d :: rest) st = (some err, st1) := by
              simp [feedPass, hoff, hlk, hres]
            rw [this]
            exact ⟨fun h0 => by simp at h0, fun _ _ => hdrain.2 err rfl⟩
          | none =>
            have : feedPass L b w (d :: rest) st = feedPass L b w rest st1 := by
              simp [feedPass, hoff, hlk, hres]
            rw [this]
            exact ih _ (hleave _ _ _ _ (hdrain.1 rfl))
      | none =>
        have hn := hnew d rest st
          (w.put st.trace ⟨st.model.KnownDisturbances.insert d.Id ⟨d.Id, []⟩⟩) hoff h hlk
        cases hput : w.put st.trace ⟨st.model.KnownDisturbances.insert d.Id ⟨d.Id, []⟩⟩ with
        | false =>
          rw [hput] at hn
          have : feedPass L b w (d :: rest) st
              = (some TickError.store, afterCreate st d.Id false) := by
            simp [feedPass, hoff, hlk, putModel, hput, afterCreate]
          rw [this]
          exact ⟨fun h0 => by simp at h0, fun _ _ => hn.1 rfl⟩
        | true =>
          rw [hput] at hn
          have hJ := hn.2 rfl
          have hdrain := drainTracked_rule L b w Pass.newDisturbance d.Id d
            (J Pass.newDisturbance d rest) E
            (hJE Pass.newDisturbance d rest) (hJskip Pass.newDisturbance d rest)
            (hJfail Pass.newDisturbance d rest) (hJok Pass.newDisturbance d rest)
            d.statuses ⟨d.Id, []⟩ (afterCreate st d.Id true)
            (by simp [afterCreate, AList.lookup_insert]) hJ
          cases hres : drainTracked L b w Pass.newDisturbance d.Id d d.statuses ⟨d.Id, []⟩
              (afterCreate st d.Id true) with
          | mk err st1 =>
            rw [hres] at hdrain
            simp only [afterCreate] at hres
            cases err with
            | some err =>
              have : feedPass L b w (d :: rest) st = (some err, st1) := by
                simp [feedPass, hoff, hlk, putModel, hput, hres]
              rw [this]
              exact ⟨fun h0 => by simp at h0, fun _ _ => hdrain.2 err rfl⟩
            | none =>
              have : feedPass L b w (d :: rest) st = feedPass L b w rest st1 := by
                simp [feedPass, hoff, hlk, putModel, hput, hres]
              rw [this]
              exact ih _ (hleave _ _ _ _ (hdrain.1 rfl))

theorem tick_compose (L : Lib) (b : Bot) (w : World) (m0 : BotStorageModel)
    (feed : List Disturbance) (hfeed : w.listDisturbances = some feed)
    (P Q E : TickState → Prop)
    (hdis : ((disappearancePass L b w (seenDisturbances feed) m0.KnownDisturbances.keys
          ⟨m0, []⟩).1 = none →
        P (disappearancePass L b w (seenDisturbances feed) m0.KnownDisturbances.keys
          ⟨m0, []⟩).2) ∧
      (∀ err, (disappearancePass L b w (seenDisturbances feed) m0.KnownDisturbances.keys
          ⟨m0, []⟩).1 = some err →
        E (disappearancePass L b w (seenDisturbances feed) m0.KnownDisturbances.keys
          ⟨m0, []⟩).2))
    (hfp : ∀ st, P st →
      ((feedPass L b w feed st).1 = none → Q (feedPass L b w feed st).2) ∧
      (∀ err, (feedPass L b w feed st).1 = some err → E (feedPass L b w feed st).2)) :
    ((tick L b w m0).1 = none → Q (tick L b w m0).2) ∧
    (∀ err, (tick L b w m0).1 = some err → E (tick L b w m0).2) := by
  cases hres : disappearancePass L b w (seenDisturbances feed) m0.KnownDisturbances.keys
      ⟨m0, []⟩ with
  | mk err st1 =>
    rw [hres] at hdis
    cases err with
    | some err =>
      have : tick L b w m0 = (some err, st1) := by
        simp [tick, hfeed, hres]
      rw [this]
      exact ⟨fun h0 => by simp at h0, fun _ _ => hdis.2 err rfl⟩
    | none =>
      have : tick L b w m0 = feedPass L b w feed st1 := by
        simp [tick, hfeed, hres]
      rw [this]
      exact hfp st1 (hdis.1 rfl)

theorem tick_of_list_failure (L : Lib) (b : Bot) (w : World) (m0 : BotStorageModel)
    (hfeed : w.listDisturbances = none) :
    tick L b w m0 = (some TickError.source, ⟨m0, []⟩) := by
  simp [tick, hfeed]

/-- A property that every step preserves while the run goes on (`I`), and
that holds of the state left by a failed call (`E`), holds of every run. -/
theorem tick_steps_rule (L : Lib) (b : Bot) (w : World) (m0 : BotStorageModel)
    (I E : TickState → Prop)
    (h0 : I ⟨m0, []⟩)
    (hE : ∀ st, I st → E st)
    (hfetch : ∀ st id ans, I st →
      (ans = none → E (afterFetch st id ans)) ∧ (ans ≠ none → I (afterFetch st id ans)))
    (hfail : ∀ pass key d s st e, s.official = true → I st →
      E (afterPublishFail L b w pass key d s st e))
    (hok : ∀ pass key d s st e r ok, s.official = true → I st →
      (ok = false → E (afterPublishPut L b w pass key d s st e r ok)) ∧
      (ok = true → I (afterPublishPut L b w pass key d s st e r ok)))
    (herase : ∀ st id ok, I st →
      (ok = false → E (afterErase st id ok)) ∧ (ok = true → I (afterErase st id ok)))
    (hcreate : ∀ st id ok, I st →
      (ok = false → E (afterCreate st id ok)) ∧ (ok = true → I (afterCreate st id ok))) :
    ((tick L b w m0).1 = none → I (tick L b w m0).2) ∧
    (∀ err, (tick L b w m0).1 = some err → E (tick L b w m0).2) := by
  cases hfeed : w.listDisturbances with
  | none =>
    rw [tick_of_list_failure L b w m0 hfeed]
    exact ⟨fun h => by simp at h, fun _ _ => hE _ h0⟩
  | some feed =>
    refine tick_compose L b w m0 feed hfeed I I E ?_ ?_
    · exact disappearancePass_rule L b w (seenDisturbances feed) (fun _ st => I st)
        (fun _ _ _ _ st => I st) E
        (fun _ _ _ _ h => h)
        (fun id _ st _ h => (hfetch st id none h).1 rfl)
        (fun id _ st d _ h => (hfetch st id (some d) h).2 (by simp))
        (fun _ _ _ _ st h => hE st h)
        (fun _ _ _ _ _ _ _ h => h)
        (fun id _ d s _ st e hs h => hfail _ id d s st e hs h)
        (fun id _ d s _ st e r ok hs h => hok _ id d s st e r ok hs h)
        (fun id _ _ st ok h => herase st id ok h)
        _ _ h0
    · intro st hst
      exact feedPass_rule L b w (fun _ st => I st) (fun _ _ _ _ st => I st) E
        (fun _ _ _ _ h => h)
        (fun _ _ _ _ _ h _ => h)
        (fun d _ st ok _ h _ => hcreate st d.Id ok h)
        (fun _ _ _ _ st h => hE st h)
        (fun _ _ _ _ _ _ _ h => h)
        (fun pass d _ s _ st e hs h => hfail pass d.Id d s st e hs h)
        (fun pass d _ s _ st e r ok hs h => hok pass d.Id d s st e r ok hs h)
        (fun _ _ _ _ h => h)
        _ _ hst

/-! ## Non-official statuses are never posted -/

theorem official_iff (s : LineStatus) : s.official = true ↔ s.OfficialSource = some true := by
  unfold LineStatus.official
  cases s.OfficialSource with
  | none => simp
  | some v => cases v <;> simp

theorem PostedOfficially.mono_posted {tr tr' : List Event} {key : String} {x : KnownStatus}
    (hsub : ∀ e ∈ tr, e ∈ tr') (h : PostedOfficially tr key x) : PostedOfficially tr' key x := by
  obtain ⟨pass, sent, s, p, r, hmem, hs, hx⟩ := h
  exact ⟨pass, sent, s, p, r, hsub _ hmem, hs, hx⟩

theorem RecordsOnlyOfficial.mono_records {m0 m : BotStorageModel} {tr tr' : List Event}
    (hsub : ∀ e ∈ tr, e ∈ tr') (h : RecordsOnlyOfficial m0 tr m) :
    RecordsOnlyOfficial m0 tr' m := by
  intro key kd hk x hx
  rcases h key kd hk x hx with h1 | h1
  · exact Or.inl h1
  · exact Or.inr (h1.mono_posted hsub)

theorem entry_of_lookup {st : TickState} {key : String} {kd : KnownDisturbance}
    (h : st.model.KnownDisturbances.lookup key = some kd) : st.entry key = kd :=
  index_of_lookup h

theorem entry_of_lookup_none {st : TickState} {key : String}
    (h : st.model.KnownDisturbances.lookup key = none) : st.entry key = ⟨"", []⟩ := by
  simp [TickState.entry, DisturbanceMap.index, h]

theorem recordsOnlyOfficial_modelWithPost (L : Lib) (b : Bot) (w : World) (m0 : BotStorageModel)
    (pass : Pass) (key : String) (d : Disturbance) (s : LineStatus) (st : TickState)
    (e : EmbedExternal) (r : String × String) (tr : List Event)
    (hs : s.official = true)
    (hmem : publishEvent L b w pass key d s st e (some r) ∈ tr)
    (h : RecordsOnlyOfficial m0 tr st.model) :
    RecordsOnlyOfficial m0 tr (modelWithPost key s st r) := by
  intro key' kd hk x hx
  by_cases hkey : key' = key
  · subst hkey
    simp only [modelWithPost, AList.lookup_insert, Option.some.injEq] at hk
    subst hk
    simp only [List.mem_append, List.mem_singleton] at hx
    rcases hx with hx | hx
    · cases hl : st.model.KnownDisturbances.lookup key' with
      | none =>
        rw [entry_of_lookup_none hl] at hx
        simp at hx
      | some kd0 =>
        rw [entry_of_lookup hl] at hx
        exact h key' kd0 hl x hx
    · right
      exact ⟨pass, _, s, _, r, hmem, (official_iff s).1 hs, hx⟩
  · simp only [modelWithPost, AList.lookup_insert_ne hkey] at hk
    exact h key' kd hk x hx

theorem officialInv_tick (L : Lib) (b : Bot) (w : World) (m0 : BotStorageModel) :
    OfficialInv m0 (tick L b w m0).2 := by
  have key := tick_steps_rule L b w m0 (OfficialInv m0) (OfficialInv m0) ?_ (fun _ h => h)
    ?_ ?_ ?_ ?_ ?_
  · cases h : (tick L b w m0).1 with
    | none => exact key.1 h
    | some err => exact key.2 err h
  · refine ⟨by simp, ?_, by simp⟩
    intro key kd hk x hx
    left
    rw [index_of_lookup hk]
    exact hx
  · intro st id ans h
    have hI : OfficialInv m0 (afterFetch st id ans) := by
      obtain ⟨ha, hb, hc⟩ := h
      refine ⟨?_, ?_, ?_⟩
      · intro pass key sent s p a hmem
        simp only [afterFetch, List.mem_append, List.mem_singleton] at hmem
        rcases hmem with hmem | hmem
        · exact ha _ _ _ _ _ _ hmem
        · cases hmem
      · exact hb.mono_records (by simp [afterFetch]; tauto)
      · intro m ok hmem
        simp only [afterFetch, List.mem_append, List.mem_singleton] at hmem
        rcases hmem with hmem | hmem
        · exact (hc m ok hmem).mono_records (by simp [afterFetch]; tauto)
        · cases hmem
    exact ⟨fun _ => hI, fun _ => hI⟩
  · intro pass key d s st e hs h
    obtain ⟨ha, hb, hc⟩ := h
    refine ⟨?_, ?_, ?_⟩
    · intro pass' key' sent s' p a hmem
      simp only [afterPublishFail, List.mem_append, List.mem_singleton] at hmem
      rcases hmem with hmem | hmem
      · exact ha _ _ _ _ _ _ hmem
      · simp only [publishEvent, Event.publish.injEq] at hmem
        rw [hmem.2.2.2.1]
        exact (official_iff s).1 hs
    · exact hb.mono_records (by simp [afterPublishFail]; tauto)
    · intro m ok hmem
      simp only [afterPublishFail, List.mem_append, List.mem_singleton] at hmem
      rcases hmem with hmem | hmem
      · exact (hc m ok hmem).mono_records (by simp [afterPublishFail]; tauto)
      · simp [publishEvent] at hmem
  · intro pass key d s st e r ok hs h
    have hI : OfficialInv m0 (afterPublishPut L b w pass key d s st e r ok) := by
      obtain ⟨ha, hb, hc⟩ := h
      have hsub : ∀ ev ∈ st.trace, ev ∈ (afterPublishPut L b w pass key d s st e r ok).trace := by
        intro ev hev
        simp [afterPublishPut, hev]
      have hnew : RecordsOnlyOfficial m0 (afterPublishPut L b w pass key d s st e r ok).trace
          (modelWithPost key s st r) :=
        recordsOnlyOfficial_modelWithPost L b w m0 pass key d s st e r _ hs
          (by simp [afterPublishPut]) (hb.mono_records hsub)
      refine ⟨?_, hnew, ?_⟩
      · intro pass' key' sent s' p a hmem
        simp only [afterPublishPut, List.mem_append, List.mem_cons, List.mem_singleton,
          List.not_mem_nil, or_false] at hmem
        rcases hmem with hmem | hmem | hmem
        · exact ha _ _ _ _ _ _ hmem
        · simp only [publishEvent, Event.publish.injEq] at hmem
          rw [hmem.2.2.2.1]
          exact (official_iff s).1 hs
        · cases hmem
      · intro m ok' hmem
        simp only [afterPublishPut, List.mem_append, List.mem_cons, List.mem_singleton,
          List.not_mem_nil, or_false] at hmem
        rcases hmem with hmem | hmem | hmem
        · exact (hc m ok' hmem).mono_records hsub
        · simp [publishEvent] at hmem
        · simp only [Event.put.injEq] at hmem
          rw [hmem.1]
          exact hnew
    exact ⟨fun _ => hI, fun _ => hI⟩
  · intro st id ok h
    have hI : OfficialInv m0 (afterErase st id ok) := by
      obtain ⟨ha, hb, hc⟩ := h
      have hsub : ∀ ev ∈ st.trace, ev ∈ (afterErase st id ok).trace := by
        intro ev hev
        simp [afterErase, hev]
      have hnew : RecordsOnlyOfficial m0 (afterErase st id ok).trace
          ⟨st.model.KnownDisturbances.erase id⟩ := by
        intro key kd hk x hx
        by_cases hkey : key = id
        · subst hkey
          simp [AList.lookup_erase] at hk
        · simp only [AList.lookup_erase_ne hkey] at hk
          exact (hb.mono_records hsub) key kd hk x hx
      refine ⟨?_, hnew, ?_⟩
      · intro pass' key' sent s' p a hmem
        simp only [afterErase, List.mem_append, List.mem_singleton] at hmem
        rcases hmem with hmem | hmem
        · exact ha _ _ _ _ _ _ hmem
        · cases hmem
      · intro m ok' hmem
        simp only [afterErase, List.mem_append, List.mem_singleton] at hmem
        rcases hmem with hmem | hmem
        · exact (hc m ok' hmem).mono_records hsub
        · simp only [Event.put.injEq] at hmem
          rw [hmem.1]
          exact hnew
    exact ⟨fun _ => hI, fun _ => hI⟩
  · intro st id ok h
    have hI : OfficialInv m0 (afterCreate st id ok) := by
      obtain ⟨ha, hb, hc⟩ := h
      have hsub : ∀ ev ∈ st.trace, ev ∈ (afterCreate st id ok).trace := by
        intro ev hev
        simp [afterCreate, hev]
      have hnew : RecordsOnlyOfficial m0 (afterCreate st id ok).trace
          ⟨st.model.KnownDisturbances.insert id ⟨id, []⟩⟩ := by
        intro key kd hk x hx
        by_cases hkey : key = id
        · subst hkey
          simp only [AList.lookup_insert, Option.some.injEq] at hk
          subst hk
          simp at hx
        · simp only [AList.lookup_insert_ne hkey] at hk
          exact (hb.mono_records hsub) key kd hk x hx
      refine ⟨?_, hnew, ?_⟩
      · intro pass' key' sent s' p a hmem
        simp only [afterCreate, List.mem_append, List.mem_singleton] at hmem
        rcases hmem with hmem | hmem
        · exact ha _ _ _ _ _ _ hmem
        · cases hmem
      · intro m ok' hmem
        simp only [afterCreate, List.mem_append, List.mem_singleton] at hmem
        rcases hmem with hmem | hmem
        · exact (hc m ok' hmem).mono_records hsub
        · simp only [Event.put.injEq] at hmem
          rw [hmem.1]
          exact hnew
    exact ⟨fun _ => hI, fun _ => hI⟩

/-- C4. In every run of `tick`, whatever the checkpoint, the feed, the by-id
answers and the failures, every publish call is for a status whose
OfficialSource flag is true, and every known status in the final model or in
a model handed to `Put` either was in the starting checkpoint under the same
key or is the record (status id, content id, location) of a successful
publish call for an officially-sourced status of that disturbance. -/
theorem non_official_never_posted (L : Lib) (b : Bot) (w : World) (m0 : BotStorageModel) :
    (∀ pass key sent s p ans,
      Event.publish pass key sent s p ans ∈ (tick L b w m0).2.trace →
        s.OfficialSource = some true) ∧
    (∀ m, (m = (tick L b w m0).2.model ∨ ∃ ok, Event.put m ok ∈ (tick L b w m0).2.trace) →
      ∀ key kd, m.KnownDisturbances.lookup key = some kd → ∀ x ∈ kd.KnownStatuses,
        x ∈ (m0.KnownDisturbances.index key).KnownStatuses ∨
        ∃ pass sent s p r,
          Event.publish pass key sent s p (some r) ∈ (tick L b w m0).2.trace ∧
          s.OfficialSource = some true ∧ x = ⟨s.Id, r.1, r.2⟩) := by
  obtain ⟨ha, hb, hc⟩ := officialInv_tick L b w m0
  refine ⟨ha, ?_⟩
  intro m hm key kd hk x hx
  rcases hm with rfl | ⟨ok, hm⟩
  · exact hb key kd hk x hx
  · exact hc m ok hm key kd hk x hx

/-! ## Persist after every post -/

theorem snoc_eq_append_cons {α : Type} {tr a c : List α} {x e : α}
    (h : tr ++ [x] = a ++ e :: c) :
    (c = [] ∧ a = tr ∧ e = x) ∨ ∃ c', c = c' ++ [x] ∧ tr = a ++ e :: c' := by
  rcases List.eq_nil_or_concat c with rfl | ⟨c', y, rfl⟩
  · left
    have h' : tr ++ [x] = a ++ [e] := h
    have := List.append_inj' h' rfl
    simp only [List.cons.injEq, and_true] at this
    exact ⟨rfl, this.1.symm, this.2.symm⟩
  · right
    have h' : tr ++ [x] = (a ++ e :: c') ++ [y] := by
      rw [h]; simp
    have := List.append_inj' h' rfl
    simp only [List.cons.injEq, and_true] at this
    exact ⟨c', by rw [this.2, List.concat_eq_append], this.1⟩

theorem EveryPostSaved.nil_saved : EveryPostSaved [] := by
  intro a pass key sent s p ans c h
  simp at h

theorem EveryPostSaved.snoc_saved {tr : List Event} (h : EveryPostSaved tr) (x : Event)
    (hx : x.isPublish = false) : EveryPostSaved (tr ++ [x]) := by
  intro a pass key sent s p ans c heq
  rcases snoc_eq_append_cons heq with ⟨-, -, he⟩ | ⟨c', rfl, htr⟩
  · rw [← he] at hx
    simp [Event.isPublish] at hx
  · obtain ⟨r, m, c'', hr, hc, hs⟩ := h a pass key sent s p ans c' htr
    exact ⟨r, m, c'' ++ [x], hr, by rw [hc]; rfl, hs⟩

theorem EveryPostSaved.snoc_post {tr : List Event} (h : EveryPostSaved tr)
    (pass : Pass) (key : String) (sent : List KnownStatus) (s : LineStatus) (p : FeedPost)
    (r : String × String) (m : BotStorageModel) (hm : SavedLast m key ⟨s.Id, r.1, r.2⟩) :
    EveryPostSaved (tr ++ [Event.publish pass key sent s p (some r), Event.put m true]) := by
  intro a pass' key' sent' s' p' ans' c heq
  have heq' : (tr ++ [Event.publish pass key sent s p (some r)]) ++ [Event.put m true]
      = a ++ Event.publish pass' key' sent' s' p' ans' :: c := by
    rw [← heq]; simp
  rcases snoc_eq_append_cons heq' with ⟨-, -, he⟩ | ⟨c', rfl, htr⟩
  · cases he
  · rcases snoc_eq_append_cons htr with ⟨hc, -, he⟩ | ⟨c'', rfl, htr'⟩
    · subst hc
      simp only [Event.publish.injEq] at he
      obtain ⟨-, hk, -, hs, -, ha⟩ := he
      subst hk hs ha
      exact ⟨r, m, [], rfl, rfl, hm⟩
    · obtain ⟨r', m', c3, hr, hc, hs⟩ := h a pass' key' sent' s' p' ans' c'' htr'
      exact ⟨r', m', c3 ++ [Event.publish pass key sent s p (some r), Event.put m true], hr,
        by rw [hc]; simp, hs⟩

/-- A trace whose posts are all saved, extended by a tail in which no
publish call follows another event, has every post saved before the next. -/
theorem EveryPostSaved.savedBeforeNext {tr : List Event} (h : EveryPostSaved tr)
    (tail : List Event) (htail : ∀ x ∈ tail.tail, x.isPublish = false) :
    SavedBeforeNextPost (tr ++ tail) := by
  intro a pass key sent s p ans mid e c heq he
  rw [List.append_eq_append_iff] at heq
  have hbad : ∀ pre, tail = pre ++ Event.publish pass key sent s p ans :: (mid ++ e :: c) →
      False := by
    intro pre hpre
    have hmem : e ∈ tail.tail := by
      rw [hpre]
      cases pre with
      | nil => simp
      | cons y pre' => simp
    rw [htail e hmem] at he
    cases he
  rcases heq with ⟨a', -, h2⟩ | ⟨c', h1, h2⟩
  · exact (hbad a' h2).elim
  · cases c' with
    | nil =>
      simp only [List.nil_append] at h2
      exact (hbad [] h2.symm).elim
    | cons y c0 =>
      simp only [List.cons_append, List.cons.injEq] at h2
      obtain ⟨hy, hrest⟩ := h2
      subst hy
      obtain ⟨r, m, c3, hr, hc, hs⟩ := h a pass key sent s p ans c0 h1
      refine ⟨r, m, ?_⟩
      subst hc
      cases mid with
      | nil =>
        simp only [List.nil_append, List.cons_append, List.cons.injEq] at hrest
        rw [hrest.1] at he
        cases he
      | cons z mid' =>
        simp only [List.cons_append, List.cons.injEq] at hrest
        exact ⟨mid', hr, by rw [hrest.1], hs⟩

theorem savedLast_modelWithPost (key : String) (s : LineStatus) (st : TickState)
    (r : String × String) : SavedLast (modelWithPost key s st r) key ⟨s.Id, r.1, r.2⟩ := by
  refine ⟨_, AList.lookup_insert _, ?_⟩
  simp [knownStatusOf]

theorem savedBeforeNextPost_tick (L : Lib) (b : Bot) (w : World) (m0 : BotStorageModel) :
    SavedBeforeNextPost (tick L b w m0).2.trace := by
  have key := tick_steps_rule L b w m0 (fun st => EveryPostSaved st.trace)
    (fun st => SavedBeforeNextPost st.trace) EveryPostSaved.nil_saved
    (fun st h => by simpa using h.savedBeforeNext [] (by simp)) ?_ ?_ ?_ ?_ ?_
  · cases h : (tick L b w m0).1 with
    | none => simpa using (key.1 h).savedBeforeNext [] (by simp)
    | some err => exact key.2 err h
  · intro st id ans h
    exact ⟨fun _ => h.savedBeforeNext [_] (by simp), fun _ => h.snoc_saved _ rfl⟩
  · intro pass key d s st e _ h
    exact h.savedBeforeNext [_] (by simp)
  · intro pass key d s st e r ok _ h
    refine ⟨fun _ => ?_, fun hok => ?_⟩
    · exact h.savedBeforeNext [_, _] (by simp [Event.isPublish])
    · subst hok
      exact h.snoc_post _ _ _ _ _ _ _ (savedLast_modelWithPost key s st r)
  · intro st id ok h
    exact ⟨fun _ => h.savedBeforeNext [_] (by simp), fun _ => h.snoc_saved _ rfl⟩
  · intro st id ok h
    exact ⟨fun _ => h.savedBeforeNext [_] (by simp), fun _ => h.snoc_saved _ rfl⟩

/-! ## Threading -/

theorem resultsOf_append (key : String) (a c : List Event) :
    resultsOf key (a ++ c) = resultsOf key a ++ resultsOf key c := by
  induction a with
  | nil => rfl
  | cons e a ih =>
    cases e with
    | fetch id ans => simpa [resultsOf] using ih
    | put m ok => simpa [resultsOf] using ih
    | publish pass k sent s p ans =>
      cases ans with
      | none => simpa [resultsOf] using ih
      | some r =>
        by_cases hk : k = key
        · simp [resultsOf, hk, ih]
        · simp [resultsOf, hk, ih]

theorem chainAt_snoc_other (m0 : BotStorageModel) (key : String) (tr : List Event) (e : Event)
    (h : resultsOf key [e] = []) : chainAt m0 key (tr ++ [e]) = chainAt m0 key tr := by
  simp [chainAt, resultsOf_append, h]

theorem resultsOf_put (key : String) (m : BotStorageModel) (ok : Bool) :
    resultsOf key [Event.put m ok] = [] := rfl

theorem resultsOf_fetch (key id : String) (ans : Option Disturbance) :
    resultsOf key [Event.fetch id ans] = [] := rfl

theorem resultsOf_publish_none (key : String) (pass : Pass) (k : String)
    (sent : List KnownStatus) (s : LineStatus) (p : FeedPost) :
    resultsOf key [Event.publish pass k sent s p none] = [] := rfl

theorem resultsOf_publish_ne (key : String) (pass : Pass) (k : String)
    (sent : List KnownStatus) (s : LineStatus) (p : FeedPost) (ans : Option (String × String))
    (h : k ≠ key) : resultsOf key [Event.publish pass k sent s p ans] = [] := by
  cases ans with
  | none => rfl
  | some r => simp [resultsOf, h]

theorem resultsOf_publish_self (key : String) (pass : Pass)
    (sent : List KnownStatus) (s : LineStatus) (p : FeedPost) (r : String × String) :
    resultsOf key [Event.publish pass key sent s p (some r)] = [⟨s.Id, r.1, r.2⟩] := by
  simp [resultsOf]

theorem Chained.nil_chained (m0 : BotStorageModel) : Chained m0 [] := by
  intro a e c h
  simp at h

theorem Chained.snoc_chained {m0 : BotStorageModel} {tr : List Event} (h : Chained m0 tr) (e : Event)
    (he : ChainedAt m0 tr e) : Chained m0 (tr ++ [e]) := by
  intro a e' c heq
  rcases snoc_eq_append_cons heq with ⟨-, ha, he'⟩ | ⟨c', -, htr⟩
  · subst ha he'
    exact he
  · exact h a e' c' htr

theorem postWithEmbed_reply (L : Lib) (b : Bot) (w : World) (sent : List KnownStatus)
    (d : Disturbance) (s : LineStatus) (st : TickState) (e : EmbedExternal) :
    (postWithEmbed L b w sent d s st e).Reply = replyRef sent := rfl

theorem chainedAt_publishEvent (L : Lib) (b : Bot) (w : World) (m0 : BotStorageModel)
    (pass : Pass) (key : String) (d : Disturbance) (s : LineStatus) (st : TickState)
    (e : EmbedExternal) (ans : Option (String × String))
    (h : (st.entry key).KnownStatuses = chainAt m0 key st.trace) :
    ChainedAt m0 st.trace (publishEvent L b w pass key d s st e ans) :=
  ⟨h, rfl⟩

theorem chainInv_fetch {m0 : BotStorageModel} {alive : String → Prop} {st : TickState}
    (h : ChainInv m0 alive st) (id : String) (ans : Option Disturbance) :
    ChainInv m0 alive (afterFetch st id ans) := by
  obtain ⟨h1, h2, h3⟩ := h
  refine ⟨h1.snoc_chained (Event.fetch id ans) trivial, ?_, h3⟩
  intro key hk
  have := h2 key hk
  simpa [afterFetch, TickState.entry, chainAt_snoc_other _ _ _ _ (resultsOf_fetch key id ans)]
    using this

theorem chainInv_publishFail (L : Lib) (b : Bot) (w : World) {m0 : BotStorageModel}
    {alive : String → Prop} {st : TickState} (h : ChainInv m0 alive st)
    (pass : Pass) (key : String) (d : Disturbance) (s : LineStatus) (e : EmbedExternal)
    (hkey : alive key) :
    ChainInv m0 alive (afterPublishFail L b w pass key d s st e) := by
  obtain ⟨h1, h2, h3⟩ := h
  refine ⟨h1.snoc_chained _ (chainedAt_publishEvent L b w m0 pass key d s st e none (h2 key hkey)),
    ?_, h3⟩
  intro k hk
  have := h2 k hk
  simpa [afterPublishFail, publishEvent, TickState.entry,
    chainAt_snoc_other _ _ _ _ (resultsOf_publish_none k _ _ _ _ _)] using this

theorem chainInv_publishPut (L : Lib) (b : Bot) (w : World) {m0 : BotStorageModel}
    {alive : String → Prop} {st : TickState} (h : ChainInv m0 alive st)
    (pass : Pass) (key : String) (d : Disturbance) (s : LineStatus) (e : EmbedExternal)
    (r : String × String) (ok : Bool) (hkey : alive key) :
    ChainInv m0 alive (afterPublishPut L b w pass key d s st e r ok) := by
  obtain ⟨h1, h2, h3⟩ := h
  have htr : (afterPublishPut L b w pass key d s st e r ok).trace
      = (st.trace ++ [publishEvent L b w pass key d s st e (some r)])
        ++ [Event.put (modelWithPost key s st r) ok] := by
    simp [afterPublishPut]
  have hchain : ∀ k, alive k →
      ((modelWithPost key s st r).KnownDisturbances.index k).KnownStatuses
        = chainAt m0 k (st.trace ++ [publishEvent L b w pass key d s st e (some r)]) := by
    intro k hk
    by_cases hkk : k = key
    · subst hkk
      rw [modelWithPost, index_insert_self]
      simp only [chainAt, resultsOf_append, publishEvent, resultsOf_publish_self]
      rw [h2 k hk, chainAt, knownStatusOf, List.append_assoc]
    · have hne : key ≠ k := fun h => hkk h.symm
      rw [chainAt_snoc_other _ _ _ _ (by
        simp only [publishEvent]
        exact resultsOf_publish_ne k _ _ _ _ _ _ hne)]
      rw [← h2 k hk]
      simp [modelWithPost, DisturbanceMap.index, TickState.entry, AList.lookup_insert_ne hkk]
  have halive : ∀ k, k ∈ (modelWithPost key s st r).KnownDisturbances → alive k := by
    intro k hk
    simp only [modelWithPost, AList.mem_insert] at hk
    rcases hk with rfl | hk
    · exact hkey
    · exact h3 k hk
  refine ⟨?_, ?_, halive⟩
  · rw [htr]
    refine (h1.snoc_chained _
      (chainedAt_publishEvent L b w m0 pass key d s st e (some r) (h2 key hkey))).snoc_chained _ ?_
    intro k hk
    exact hchain k (halive k hk)
  · intro k hk
    rw [htr, chainAt_snoc_other _ _ _ _ (resultsOf_put k _ _)]
    exact hchain k hk

theorem chainInv_erase {m0 : BotStorageModel} {alive alive' : String → Prop} {st : TickState}
    (h : ChainInv m0 alive st) (id : String) (ok : Bool)
    (hsub : ∀ k, alive' k → alive k ∧ k ≠ id)
    (hsup : ∀ k, alive k → k ≠ id → alive' k) :
    ChainInv m0 alive' (afterErase st id ok) := by
  obtain ⟨h1, h2, h3⟩ := h
  have hentry : ∀ k, k ≠ id →
      (DisturbanceMap.index (st.model.KnownDisturbances.erase id) k).KnownStatuses
        = (st.entry k).KnownStatuses := by
    intro k hk
    simp [DisturbanceMap.index, TickState.entry, AList.lookup_erase_ne hk]
  have halive : ∀ k, k ∈ st.model.KnownDisturbances.erase id → alive' k := by
    intro k hk
    rw [AList.mem_erase] at hk
    exact hsup k (h3 k hk.2) hk.1
  refine ⟨?_, ?_, halive⟩
  · refine h1.snoc_chained _ ?_
    intro k hk
    have hk' := hsub k (halive k hk)
    rw [hentry k hk'.2]
    exact h2 k hk'.1
  · intro k hk
    have hk' := hsub k hk
    simp only [afterErase]
    rw [chainAt_snoc_other _ _ _ _ (resultsOf_put k _ _)]
    have := h2 k hk'.1
    rw [← this]
    exact hentry k hk'.2

theorem chainInv_create {m0 : BotStorageModel} {alive : String → Prop} {st : TickState}
    (h : ChainInv m0 alive st) (id : String) (ok : Bool) (hid : alive id)
    (hnone : st.model.KnownDisturbances.lookup id = none) :
    ChainInv m0 alive (afterCreate st id ok) := by
  obtain ⟨h1, h2, h3⟩ := h
  have hentry : ∀ k,
      (DisturbanceMap.index (st.model.KnownDisturbances.insert id ⟨id, []⟩) k).KnownStatuses
        = (st.entry k).KnownStatuses := by
    intro k
    by_cases hk : k = id
    · subst hk
      rw [index_insert_self, entry_of_lookup_none hnone]
    · simp [DisturbanceMap.index, TickState.entry, AList.lookup_insert_ne hk]
  have halive : ∀ k, k ∈ st.model.KnownDisturbances.insert id ⟨id, []⟩ → alive k := by
    intro k hk
    rw [AList.mem_insert] at hk
    rcases hk with rfl | hk
    · exact hid
    · exact h3 k hk
  refine ⟨?_, ?_, halive⟩
  · refine h1.snoc_chained _ ?_
    intro k hk
    rw [hentry k]
    exact h2 k (halive k hk)
  · intro k hk
    simp only [afterCreate]
    rw [chainAt_snoc_other _ _ _ _ (resultsOf_put k _ _)]
    have := h2 k hk
    rw [← this]
    exact hentry k

theorem ChainInv.congr {m0 : BotStorageModel} {alive alive' : String → Prop} {st : TickState}
    (h : ChainInv m0 alive st) (hiff : ∀ k, alive k ↔ alive' k) : ChainInv m0 alive' st :=
  ⟨h.1, fun k hk => h.2.1 k ((hiff k).2 hk), fun k hk => (hiff k).1 (h.2.2 k hk)⟩

theorem mem_seenDisturbances {feed : List Disturbance} {d : Disturbance} (hd : d ∈ feed)
    (ho : d.official = true) : d.Id ∈ seenDisturbances feed := by
  simp only [seenDisturbances, List.mem_map, List.mem_filter]
  exact ⟨d, ⟨hd, ho⟩, rfl⟩

theorem chainInv_init (m0 : BotStorageModel) (seen : List String) :
    ChainInv m0 (fun k => k ∈ seen ∨ k ∈ m0.KnownDisturbances.keys) ⟨m0, []⟩ := by
  refine ⟨Chained.nil_chained m0, ?_, ?_⟩
  · intro k _
    simp [chainAt, resultsOf, TickState.entry]
  · intro k hk
    exact Or.inr hk

theorem chainInv_disappearancePass (L : Lib) (b : Bot) (w : World) (m0 : BotStorageModel)
    (seen : List String) :
    ((disappearancePass L b w seen m0.KnownDisturbances.keys ⟨m0, []⟩).1 = none →
      ChainInv m0 (fun k => k ∈ seen)
        (disappearancePass L b w seen m0.KnownDisturbances.keys ⟨m0, []⟩).2) ∧
    (∀ err, (disappearancePass L b w seen m0.KnownDisturbances.keys ⟨m0, []⟩).1 = some err →
      ∃ alive, ChainInv m0 alive
        (disappearancePass L b w seen m0.KnownDisturbances.keys ⟨m0, []⟩).2) := by
  have key := disappearancePass_rule L b w seen
    (fun rest st => rest.Nodup ∧ ChainInv m0 (fun k => k ∈ seen ∨ k ∈ rest) st)
    (fun id rest _ _ st => id ∉ seen ∧ (id :: rest).Nodup ∧
      ChainInv m0 (fun k => k ∈ seen ∨ k ∈ id :: rest) st)
    (fun st => ∃ alive, ChainInv m0 alive st)
    ?_ ?_ ?_ ?_ ?_ ?_ ?_ ?_ m0.KnownDisturbances.keys ⟨m0, []⟩
    ⟨m0.KnownDisturbances.keys_nodup, chainInv_init m0 seen⟩
  · refine ⟨fun h => ?_, key.2⟩
    exact (key.1 h).2.congr (by simp)
  · intro id rest st hid h
    refine ⟨(List.nodup_cons.1 h.1).2, h.2.congr ?_⟩
    intro k
    simp only [List.mem_cons]
    constructor
    · rintro (h | rfl | h)
      · exact Or.inl h
      · exact Or.inl hid
      · exact Or.inr h
    · rintro (h | h)
      · exact Or.inl h
      · exact Or.inr (Or.inr h)
  · intro id rest st _ h
    exact ⟨_, chainInv_fetch h.2 id none⟩
  · intro id rest st d hid h
    exact ⟨hid, h.1, chainInv_fetch h.2 id (some d)⟩
  · intro id rest d ss st h
    exact ⟨_, h.2.2⟩
  · intro id rest d s ss st _ h
    exact h
  · intro id rest d s ss st e _ h
    exact ⟨_, chainInv_publishFail L b w h.2.2 _ id d s e (Or.inr (List.mem_cons_self _ _))⟩
  · intro id rest d s ss st e r ok _ h
    have := chainInv_publishPut L b w h.2.2 Pass.disappearance id d s e r ok
      (Or.inr (List.mem_cons_self _ _))
    exact ⟨fun _ => ⟨_, this⟩, fun _ => ⟨h.1, h.2.1, this⟩⟩
  · intro id rest d st ok h
    obtain ⟨hid, hnd, hc⟩ := h
    have hnd' := List.nodup_cons.1 hnd
    have : ChainInv m0 (fun k => k ∈ seen ∨ k ∈ rest) (afterErase st id ok) := by
      refine chainInv_erase hc id ok ?_ ?_
      · rintro k (hk | hk)
        · exact ⟨Or.inl hk, fun h => hid (h ▸ hk)⟩
        · exact ⟨Or.inr (List.mem_cons_of_mem _ hk), fun h => hnd'.1 (h ▸ hk)⟩
      · rintro k (hk | hk) hne
        · exact Or.inl hk
        · rcases List.mem_cons.1 hk with rfl | hk
          · exact (hne rfl).elim
          · exact Or.inr hk
    exact ⟨fun _ => ⟨_, this⟩, fun _ => ⟨hnd'.2, this⟩⟩

theorem chainInv_feedPass (L : Lib) (b : Bot) (w : World) (m0 : BotStorageModel)
    (seen : List String) (feed : List Disturbance)
    (hfeed : ∀ d ∈ feed, d.official = true → d.Id ∈ seen) (st : TickState)
    (h : ChainInv m0 (fun k => k ∈ seen) st) :
    ChainInv m0 (fun k => k ∈ seen) (feedPass L b w feed st).2 := by
  have key := feedPass_rule L b w
    (fun rest st => (∀ d ∈ rest, d.official = true → d.Id ∈ seen) ∧
      ChainInv m0 (fun k => k ∈ seen) st)
    (fun _ d rest _ st => d.Id ∈ seen ∧ (∀ d ∈ rest, d.official = true → d.Id ∈ seen) ∧
      ChainInv m0 (fun k => k ∈ seen) st)
    (fun st => ChainInv m0 (fun k => k ∈ seen) st)
    ?_ ?_ ?_ ?_ ?_ ?_ ?_ ?_ feed st ⟨hfeed, h⟩
  · cases hres : (feedPass L b w feed st).1 with
    | none => exact (key.1 hres).2
    | some err => exact key.2 err hres
  · intro d rest st _ h
    exact ⟨fun d' hd' => h.1 d' (List.mem_cons_of_mem _ hd'), h.2⟩
  · intro d rest st kd ho h _
    exact ⟨h.1 d (List.mem_cons_self _ _) ho,
      fun d' hd' => h.1 d' (List.mem_cons_of_mem _ hd'), h.2⟩
  · intro d rest st ok ho h hnone
    have hd := h.1 d (List.mem_cons_self _ _) ho
    have := chainInv_create h.2 d.Id ok hd hnone
    exact ⟨fun _ => this, fun _ => ⟨hd, fun d' hd' => h.1 d' (List.mem_cons_of_mem _ hd'), this⟩⟩
  · intro pass d rest ss st h
    exact h.2.2
  · intro pass d rest s ss st _ h
    exact h
  · intro pass d rest s ss st e _ h
    exact chainInv_publishFail L b w h.2.2 pass d.Id d s e h.1
  · intro pass d rest s ss st e r ok _ h
    have := chainInv_publishPut L b w h.2.2 pass d.Id d s e r ok h.1
    exact ⟨fun _ => this, fun _ => ⟨h.1, h.2.1, this⟩⟩
  · intro pass d rest st h
    exact ⟨h.2.1, h.2.2⟩

theorem chainInv_tick (L : Lib) (b : Bot) (w : World) (m0 : BotStorageModel) :
    ∃ alive, ChainInv m0 alive (tick L b w m0).2 := by
  cases hfeed : w.listDisturbances with
  | none =>
    rw [tick_of_list_failure L b w m0 hfeed]
    exact ⟨_, chainInv_init m0 []⟩
  | some feed =>
    have key := tick_compose L b w m0 feed hfeed
      (ChainInv m0 (fun k => k ∈ seenDisturbances feed))
      (fun st => ∃ alive, ChainInv m0 alive st) (fun st => ∃ alive, ChainInv m0 alive st)
      (chainInv_disappearancePass L b w m0 (seenDisturbances feed)) ?_
    · cases hres : (tick L b w m0).1 with
      | none => exact key.1 hres
      | some err => exact key.2 err hres
    · intro st hst
      have := chainInv_feedPass L b w m0 (seenDisturbances feed) feed
        (fun d hd ho => mem_seenDisturbances hd ho) st hst
      exact ⟨fun _ => ⟨_, this⟩, fun _ _ => ⟨_, this⟩⟩

theorem replyRef_nil : replyRef [] = none := rfl

theorem replyRef_of_head_last {sent : List KnownStatus} {first last : KnownStatus}
    (hf : sent.head? = some first) (hl : sent.getLast? = some last) :
    replyRef sent = some ⟨⟨first.BSkyPostCID, first.BSkyPostURI⟩,
      ⟨last.BSkyPostCID, last.BSkyPostURI⟩⟩ := by
  simp [replyRef, hf, hl]

/-- C3. In every run of `tick` from a checkpoint `m0`, whatever the feed and
the failures: the `sentStatuses` of every publish call for a disturbance are
the chain made so far for it, that is the known statuses of its checkpoint
entry followed by the (status id, CID, URI) records returned by the earlier
publish calls of the run for it; the post carries no reply reference when
that chain is empty, and otherwise a reply reference whose root is the
(CID, URI) of the first record of the chain (post 0) and whose parent is the
(CID, URI) of its last record (post j-1).  The chain passes to the next
iteration through the checkpoint: every model handed to `Put`, and the model
left in memory, hold for each disturbance they track exactly the chain made
so far. -/
theorem threading_is_a_linear_chain (L : Lib) (b : Bot) (w : World) (m0 : BotStorageModel) :
    (∀ a pass key sent s p ans c,
      (tick L b w m0).2.trace = a ++ Event.publish pass key sent s p ans :: c →
        sent = (m0.KnownDisturbances.index key).KnownStatuses ++ resultsOf key a ∧
        (sent = [] → p.Reply = none) ∧
        (∀ first last, sent.head? = some first → sent.getLast? = some last →
          p.Reply = some ⟨⟨first.BSkyPostCID, first.BSkyPostURI⟩,
            ⟨last.BSkyPostCID, last.BSkyPostURI⟩⟩)) ∧
    (∀ a m ok c, (tick L b w m0).2.trace = a ++ Event.put m ok :: c →
      ∀ key, key ∈ m.KnownDisturbances →
        (m.KnownDisturbances.index key).KnownStatuses
          = (m0.KnownDisturbances.index key).KnownStatuses ++ resultsOf key a) ∧
    (∀ key, key ∈ (tick L b w m0).2.model.KnownDisturbances →
      ((tick L b w m0).2.model.KnownDisturbances.index key).KnownStatuses
        = (m0.KnownDisturbances.index key).KnownStatuses
          ++ resultsOf key (tick L b w m0).2.trace) := by
  obtain ⟨alive, h1, h2, h3⟩ := chainInv_tick L b w m0
  refine ⟨?_, ?_, ?_⟩
  · intro a pass key sent s p ans c heq
    have := h1 a _ c heq
    obtain ⟨hs, hr⟩ := this
    refine ⟨hs, ?_, ?_⟩
    · intro hnil
      rw [hr, hnil]
      rfl
    · intro first last hf hl
      rw [hr]
      exact replyRef_of_head_last hf hl
  · intro a m ok c heq key hk
    exact h1 a _ c heq key hk
  · intro key hk
    exact h2 key (h3 key hk)

theorem exists_publish_of_published {c : List Event} (h : 1 ≤ (publishedOf c).length) :
    ∃ x e y, c = x ++ e :: y ∧ e.isPublish = true := by
  induction c with
  | nil => simp [publishedOf] at h
  | cons e c ih =>
    cases e with
    | publish pass key sent s p ans => exact ⟨[], _, c, rfl, rfl⟩
    | fetch id ans =>
      obtain ⟨x, e', y, hc, he⟩ := ih (by simpa [publishedOf] using h)
      exact ⟨Event.fetch id ans :: x, e', y, by rw [hc]; rfl, he⟩
    | put m ok =>
      obtain ⟨x, e', y, hc, he⟩ := ih (by simpa [publishedOf] using h)
      exact ⟨Event.put m ok :: x, e', y, by rw [hc]; rfl, he⟩

theorem exists_two_publishes {c : List Event} (h : 2 ≤ (publishedOf c).length) :
    ∃ x pass key sent s p ans mid e y,
      c = x ++ Event.publish pass key sent s p ans :: (mid ++ e :: y) ∧ e.isPublish = true := by
  induction c with
  | nil => simp [publishedOf] at h
  | cons e c ih =>
    cases e with
    | publish pass key sent s p ans =>
      have h1 : 1 ≤ (publishedOf c).length := by
        simp only [publishedOf, List.length_cons] at h
        omega
      obtain ⟨mid, e', y, hc, he⟩ := exists_publish_of_published h1
      exact ⟨[], pass, key, sent, s, p, ans, mid, e', y, by rw [hc]; rfl, he⟩
    | fetch id ans =>
      obtain ⟨x, pass, key, sent, s, p, a, mid, e', y, hc, he⟩ :=
        ih (by simpa [publishedOf] using h)
      exact ⟨Event.fetch id ans :: x, pass, key, sent, s, p, a, mid, e', y, by rw [hc]; rfl, he⟩
    | put m ok =>
      obtain ⟨x, pass, key, sent, s, p, a, mid, e', y, hc, he⟩ :=
        ih (by simpa [publishedOf] using h)
      exact ⟨Event.put m ok :: x, pass, key, sent, s, p, a, mid, e', y, by rw [hc]; rfl, he⟩

theorem SavedBeforeNextPost.one_unsaved {tr : List Event} (h : SavedBeforeNextPost tr)
    (x c y : List Event) (htr : tr = x ++ c ++ y) (hc : ∀ m, Event.put m true ∉ c) :
    (publishedOf c).length ≤ 1 := by
  by_contra hlen
  obtain ⟨x', pass, key, sent, s, p, ans, mid, e, y', hc', he⟩ :=
    exists_two_publishes (c := c) (by omega)
  have htr' : tr = (x ++ x') ++ Event.publish pass key sent s p ans
      :: (mid ++ e :: (y' ++ y)) := by
    rw [htr, hc']
    simp
  obtain ⟨r, m, mid', -, hmid, -⟩ := h _ pass key sent s p ans mid e _ htr' he
  apply hc m
  rw [hc', hmid]
  simp

/-- C7, amended. In every run of `tick`: a publish call that is followed by
another publish call succeeded and is directly followed by a completed `Put`
(one that returned without error), and the model passed to that `Put` holds
the known status returned by the publish as the last element of the
KnownStatuses of its disturbance.  Hence at every point at most one publish
call has been made since the last completed `Put` (any stretch of the trace
without a completed `Put` holds at most one publish call), and every model
handed to `Put` holds, for each disturbance it still tracks, the record of
every post published for it earlier in the run. -/
theorem persist_after_every_post (L : Lib) (b : Bot) (w : World) (m0 : BotStorageModel) :
    (∀ a pass key sent s p ans mid e c,
      (tick L b w m0).2.trace
        = a ++ Event.publish pass key sent s p ans :: (mid ++ e :: c) →
      e.isPublish = true →
      ∃ r m mid', ans = some r ∧ mid = Event.put m true :: mid' ∧
        ∃ kd, m.KnownDisturbances.lookup key = some kd ∧
          kd.KnownStatuses.getLast? = some ⟨s.Id, r.1, r.2⟩) ∧
    (∀ x c y, (tick L b w m0).2.trace = x ++ c ++ y → (∀ m, Event.put m true ∉ c) →
      (publishedOf c).length ≤ 1) ∧
    (∀ a m ok c, (tick L b w m0).2.trace = a ++ Event.put m ok :: c →
      ∀ key, key ∈ m.KnownDisturbances → ∀ x ∈ resultsOf key a,
        x ∈ (m.KnownDisturbances.index key).KnownStatuses) := by
  refine ⟨?_, ?_, ?_⟩
  · intro a pass key sent s p ans mid e c heq he
    exact savedBeforeNextPost_tick L b w m0 a pass key sent s p ans mid e c heq he
  · intro x c y heq hc
    exact (savedBeforeNextPost_tick L b w m0).one_unsaved x c y heq hc
  · intro a m ok c heq key hk x hx
    obtain ⟨alive, h1, -, -⟩ := chainInv_tick L b w m0
    have := h1 a _ c heq key hk
    rw [this, chainAt]
    exact List.mem_append_right _ hx

/-! ## The tracked set -/

theorem chainInv_tick_of_success (L : Lib) (b : Bot) (w : World) (m0 : BotStorageModel)
    (feed : List Disturbance) (hfeed : w.listDisturbances = some feed)
    (hok : (tick L b w m0).1 = none) :
    ChainInv m0 (fun k => k ∈ seenDisturbances feed) (tick L b w m0).2 := by
  have key := tick_compose L b w m0 feed hfeed
    (ChainInv m0 (fun k => k ∈ seenDisturbances feed))
    (ChainInv m0 (fun k => k ∈ seenDisturbances feed)) (fun _ => True)
    ⟨(chainInv_disappearancePass L b w m0 (seenDisturbances feed)).1, fun _ _ => trivial⟩ ?_
  · exact key.1 hok
  · intro st hst
    have := chainInv_feedPass L b w m0 (seenDisturbances feed) feed
      (fun d hd ho => mem_seenDisturbances hd ho) st hst
    exact ⟨fun _ => this, fun _ _ => trivial⟩

theorem seen_tracked_after_feedPass (L : Lib) (b : Bot) (w : World) (feed : List Disturbance)
    (st : TickState) (hok : (feedPass L b w feed st).1 = none) :
    ∀ id, id ∈ seenDisturbances feed → id ∈ (feedPass L b w feed st).2.model.KnownDisturbances := by
  have key := feedPass_rule L b w
    (fun rest st => ∀ id, id ∈ seenDisturbances feed →
      id ∈ seenDisturbances rest ∨ id ∈ st.model.KnownDisturbances)
    (fun _ d rest _ st => d.Id ∈ st.model.KnownDisturbances ∧
      ∀ id, id ∈ seenDisturbances feed →
        id ∈ seenDisturbances rest ∨ id ∈ st.model.KnownDisturbances)
    (fun _ => True)
    ?_ ?_ ?_ ?_ ?_ ?_ ?_ ?_ feed st (fun id hid => Or.inl hid)
  · intro id hid
    rcases key.1 hok id hid with h | h
    · simp [seenDisturbances] at h
    · exact h
  · intro d rest st ho h id hid
    rcases h id hid with h | h
    · left
      simpa [seenDisturbances, List.filter_cons, ho] using h
    · exact Or.inr h
  · intro d rest st kd ho h hlk
    have hmem : d.Id ∈ st.model.KnownDisturbances := by
      rw [← AList.lookup_isSome, hlk]
      rfl
    refine ⟨hmem, fun id hid => ?_⟩
    rcases h id hid with h | h
    · simp only [seenDisturbances, List.filter_cons, ho, if_true, List.map_cons,
        List.mem_cons] at h
      rcases h with rfl | h
      · exact Or.inr hmem
      · exact Or.inl h
    · exact Or.inr h
  · intro d rest st ok ho h _
    refine ⟨fun _ => trivial, fun _ => ⟨?_, fun id hid => ?_⟩⟩
    · simp [afterCreate, AList.mem_insert]
    · rcases h id hid with h | h
      · simp only [seenDisturbances, List.filter_cons, ho, if_true, List.map_cons,
          List.mem_cons] at h
        rcases h with rfl | h
        · right
          simp [afterCreate, AList.mem_insert]
        · exact Or.inl h
      · right
        simp only [afterCreate, AList.mem_insert]
        exact Or.inr h
  · intro _ _ _ _ _ _
    trivial
  · intro pass d rest s ss st _ h
    exact h
  · intro _ _ _ _ _ _ _ _ _
    trivial
  · intro pass d rest s ss st e r ok _ h
    refine ⟨fun _ => trivial, fun _ => ⟨?_, fun id hid => ?_⟩⟩
    · simp [afterPublishPut, modelWithPost, AList.mem_insert]
    · rcases h.2 id hid with h | h
      · exact Or.inl h
      · right
        simp only [afterPublishPut, modelWithPost, AList.mem_insert]
        exact Or.inr h
  · intro pass d rest st h
    exact h.2

/-- C9. After a run of `tick` that returns without error, the identifiers
tracked by the checkpoint are exactly the identifiers of the
officially-flagged disturbances of the ongoing feed fetched at the start of
the run. -/
theorem tracked_set_equals_official_feed (L : Lib) (b : Bot) (w : World)
    (m0 : BotStorageModel) (feed : List Disturbance)
    (hfeed : w.listDisturbances = some feed) (hok : (tick L b w m0).1 = none) :
    ∀ id, id ∈ (tick L b w m0).2.model.KnownDisturbances ↔
      ∃ d ∈ feed, d.Official = some true ∧ d.Id = id := by
  have hseen : ∀ id, id ∈ seenDisturbances feed ↔
      ∃ d ∈ feed, d.Official = some true ∧ d.Id = id := by
    intro id
    simp only [seenDisturbances, List.mem_map, List.mem_filter, Disturbance.official]
    constructor
    · rintro ⟨d, ⟨hd, ho⟩, rfl⟩
      refine ⟨d, hd, ?_, rfl⟩
      cases hO : d.Official with
      | none => simp [hO] at ho
      | some v =>
        cases v
        · simp [hO] at ho
        · rfl
    · rintro ⟨d, hd, ho, rfl⟩
      exact ⟨d, ⟨hd, by simp [ho]⟩, rfl⟩
  intro id
  rw [← hseen id]
  constructor
  · intro hid
    exact (chainInv_tick_of_success L b w m0 feed hfeed hok).2.2 id hid
  · intro hid
    have key := tick_compose L b w m0 feed hfeed (fun _ => True)
      (fun st => ∀ id, id ∈ seenDisturbances feed → id ∈ st.model.KnownDisturbances)
      (fun _ => True) ⟨fun _ => trivial, fun _ _ => trivial⟩ ?_
    · exact key.1 hok id hid
    · intro st _
      exact ⟨fun h => seen_tracked_after_feedPass L b w feed st h, fun _ _ => trivial⟩

/-! ## Order of the posts -/

theorem postedOrder_append (a c : List Event) :
    postedOrder (a ++ c) = postedOrder a ++ postedOrder c := by
  induction a with
  | nil => rfl
  | cons e a ih => cases e <;> simp [postedOrder, ih]

theorem fetchedOf_append (a c : List Event) :
    fetchedOf (a ++ c) = fetchedOf a ++ fetchedOf c := by
  induction a with
  | nil => rfl
  | cons e a ih =>
    cases e with
    | fetch id ans => cases ans <;> simp [fetchedOf, ih]
    | publish pass k sent s p ans => simp [fetchedOf, ih]
    | put m ok => simp [fetchedOf, ih]

theorem disappearedCandidates_append (a c : List Event) :
    disappearedCandidates (a ++ c) = disappearedCandidates a ++ disappearedCandidates c := by
  simp [disappearedCandidates, fetchedOf_append]

theorem eligibleOf_cons_official (flag : Bool) (key : String) (s : LineStatus)
    (ss : List LineStatus) (h : s.official = true) :
    eligibleOf flag key (s :: ss) = (flag, key, s) :: eligibleOf flag key ss := by
  simp [eligibleOf, List.filter_cons, h]

theorem eligibleOf_cons_unofficial (flag : Bool) (key : String) (s : LineStatus)
    (ss : List LineStatus) (h : s.official = false) :
    eligibleOf flag key (s :: ss) = eligibleOf flag key ss := by
  simp [eligibleOf, List.filter_cons, h]

theorem eligibleOf_newStatuses_sublist (flag : Bool) (key : String) (d : Disturbance)
    (known : List KnownStatus) :
    (eligibleOf flag key (newStatusesOf d known)).Sublist (eligibleOf flag key d.statuses) := by
  unfold eligibleOf newStatusesOf
  exact ((List.drop_sublist _ _).filter _).map _

theorem feedCandidates_cons_official (d : Disturbance) (rest : List Disturbance)
    (h : d.official = true) :
    feedCandidates (d :: rest) = eligibleOf false d.Id d.statuses ++ feedCandidates rest := by
  simp [feedCandidates, List.filter_cons, h]

theorem feedCandidates_cons_unofficial (d : Disturbance) (rest : List Disturbance)
    (h : d.official = false) : feedCandidates (d :: rest) = feedCandidates rest := by
  simp [feedCandidates, List.filter_cons, h]

theorem postedOrder_afterFetch (st : TickState) (id : String) (ans : Option Disturbance) :
    postedOrder (afterFetch st id ans).trace = postedOrder st.trace := by
  simp [afterFetch, postedOrder_append, postedOrder]

theorem postedOrder_afterErase (st : TickState) (id : String) (ok : Bool) :
    postedOrder (afterErase st id ok).trace = postedOrder st.trace := by
  simp [afterErase, postedOrder_append, postedOrder]

theorem postedOrder_afterCreate (st : TickState) (id : String) (ok : Bool) :
    postedOrder (afterCreate st id ok).trace = postedOrder st.trace := by
  simp [afterCreate, postedOrder_append, postedOrder]

theorem postedOrder_afterPublishFail (L : Lib) (b : Bot) (w : World) (pass : Pass)
    (key : String) (d : Disturbance) (s : LineStatus) (st : TickState) (e : EmbedExternal) :
    postedOrder (afterPublishFail L b w pass key d s st e).trace
      = postedOrder st.trace ++ [(decide (pass = Pass.disappearance), key, s)] := by
  simp [afterPublishFail, publishEvent, postedOrder_append, postedOrder]

theorem postedOrder_afterPublishPut (L : Lib) (b : Bot) (w : World) (pass : Pass)
    (key : String) (d : Disturbance) (s : LineStatus) (st : TickState) (e : EmbedExternal)
    (r : String × String) (ok : Bool) :
    postedOrder (afterPublishPut L b w pass key d s st e r ok).trace
      = postedOrder st.trace ++ [(decide (pass = Pass.disappearance), key, s)] := by
  simp [afterPublishPut, publishEvent, postedOrder_append, postedOrder]

theorem candidates_afterFetch_none (st : TickState) (id : String) :
    disappearedCandidates (afterFetch st id none).trace = disappearedCandidates st.trace := by
  simp [afterFetch, disappearedCandidates, fetchedOf_append, fetchedOf]

theorem candidates_afterFetch_some (st : TickState) (id : String) (d : Disturbance) :
    disappearedCandidates (afterFetch st id (some d)).trace
      = disappearedCandidates st.trace ++ eligibleOf true id d.statuses := by
  simp [afterFetch, disappearedCandidates, fetchedOf_append, fetchedOf]

theorem candidates_afterErase (st : TickState) (id : String) (ok : Bool) :
    disappearedCandidates (afterErase st id ok).trace = disappearedCandidates st.trace := by
  simp [afterErase, disappearedCandidates, fetchedOf_append, fetchedOf]

theorem candidates_afterCreate (st : TickState) (id : String) (ok : Bool) :
    disappearedCandidates (afterCreate st id ok).trace = disappearedCandidates st.trace := by
  simp [afterCreate, disappearedCandidates, fetchedOf_append, fetchedOf]

theorem candidates_afterPublishFail (L : Lib) (b : Bot) (w : World) (pass : Pass)
    (key : String) (d : Disturbance) (s : LineStatus) (st : TickState) (e : EmbedExternal) :
    disappearedCandidates (afterPublishFail L b w pass key d s st e).trace
      = disappearedCandidates st.trace := by
  simp [afterPublishFail, publishEvent, disappearedCandidates, fetchedOf_append, fetchedOf]

theorem candidates_afterPublishPut (L : Lib) (b : Bot) (w : World) (pass : Pass)
    (key : String) (d : Disturbance) (s : LineStatus) (st : TickState) (e : EmbedExternal)
    (r : String × String) (ok : Bool) :
    disappearedCandidates (afterPublishPut L b w pass key d s st e r ok).trace
      = disappearedCandidates st.trace := by
  simp [afterPublishPut, publishEvent, disappearedCandidates, fetchedOf_append, fetchedOf]

/-- The order property of a finished run: no post of the disappearance
branch comes after a post of the loop over the feed, and the posts are made
in the order of the candidates. -/
theorem order_final_of_sublist {feed : List Disturbance} {st : TickState}
    {extra : List (Bool × String × LineStatus)}
    (hp : (postedOrder st.trace).Pairwise (fun x y => y.1 = true → x.1 = true))
    (hs : (postedOrder st.trace ++ extra).Sublist
      (disappearedCandidates st.trace ++ feedCandidates feed)) :
    (postedOrder st.trace).Pairwise (fun x y => y.1 = true → x.1 = true) ∧
    (postedOrder st.trace).Sublist (disappearedCandidates st.trace ++ feedCandidates feed) :=
  ⟨hp, (List.sublist_append_left _ _).trans hs⟩

theorem pairwise_snoc_feed {l : List (Bool × String × LineStatus)} {key : String}
    {s : LineStatus}
    (hp : l.Pairwise (fun x y => y.1 = true → x.1 = true)) :
    (l ++ [(false, key, s)]).Pairwise (fun x y => y.1 = true → x.1 = true) := by
  rw [List.pairwise_append]
  refine ⟨hp, List.pairwise_singleton _ _, ?_⟩
  intro x _ y hy
  simp only [List.mem_singleton] at hy
  subst hy
  intro h
  cases h

theorem order_disappearancePass (L : Lib) (b : Bot) (w : World) (m0 : BotStorageModel)
    (feed : List Disturbance) (ids : List String) :
    ((disappearancePass L b w (seenDisturbances feed) ids ⟨m0, []⟩).1 = none →
      (∀ x ∈ postedOrder (disappearancePass L b w (seenDisturbances feed) ids ⟨m0, []⟩).2.trace,
        x.1 = true) ∧
      (postedOrder (disappearancePass L b w (seenDisturbances feed) ids ⟨m0, []⟩).2.trace).Sublist
        (disappearedCandidates
          (disappearancePass L b w (seenDisturbances feed) ids ⟨m0, []⟩).2.trace)) ∧
    (∀ err, (disappearancePass L b w (seenDisturbances feed) ids ⟨m0, []⟩).1 = some err →
      (postedOrder (disappearancePass L b w (seenDisturbances feed) ids
          ⟨m0, []⟩).2.trace).Pairwise (fun x y => y.1 = true → x.1 = true) ∧
      (postedOrder (disappearancePass L b w (seenDisturbances feed) ids ⟨m0, []⟩).2.trace).Sublist
        (disappearedCandidates
          (disappearancePass L b w (seenDisturbances feed) ids ⟨m0, []⟩).2.trace
          ++ feedCandidates feed)) := by
  have hfinal : ∀ (st : TickState) (extra : List (Bool × String × LineStatus)),
      (∀ x ∈ postedOrder st.trace, x.1 = true) →
      (postedOrder st.trace ++ extra).Sublist (disappearedCandidates st.trace) →
      (postedOrder st.trace).Pairwise (fun x y => y.1 = true → x.1 = true) ∧
      (postedOrder st.trace).Sublist (disappearedCandidates st.trace ++ feedCandidates feed) := by
    intro st extra hall hs
    refine ⟨List.pairwise_of_forall_mem_list (fun x hx _ _ _ => hall x hx), ?_⟩
    exact ((List.sublist_append_left _ _).trans hs).trans (List.sublist_append_left _ _)
  exact disappearancePass_rule L b w (seenDisturbances feed)
    (fun _ st => (∀ x ∈ postedOrder st.trace, x.1 = true) ∧
      (postedOrder st.trace).Sublist (disappearedCandidates st.trace))
    (fun id _ _ ss st => (∀ x ∈ postedOrder st.trace, x.1 = true) ∧
      (postedOrder st.trace ++ eligibleOf true id ss).Sublist (disappearedCandidates st.trace))
    (fun st => (postedOrder st.trace).Pairwise (fun x y => y.1 = true → x.1 = true) ∧
      (postedOrder st.trace).Sublist (disappearedCandidates st.trace ++ feedCandidates feed))
    (fun _ _ _ _ h => h)
    (fun id _ st _ h => by
      beta_reduce at h ⊢
      apply hfinal _ []
      · rw [postedOrder_afterFetch]; exact h.1
      · rw [postedOrder_afterFetch, candidates_afterFetch_none, List.append_nil]; exact h.2)
    (fun id _ st d _ h => by
      beta_reduce at h ⊢
      refine ⟨by rw [postedOrder_afterFetch]; exact h.1, ?_⟩
      rw [postedOrder_afterFetch, candidates_afterFetch_some]
      exact h.2.append (eligibleOf_newStatuses_sublist true id d _))
    (fun id _ d ss st h => hfinal st _ h.1 h.2)
    (fun id _ d s ss st hs h => by
      beta_reduce at h ⊢
      rw [eligibleOf_cons_unofficial _ _ _ _ hs] at h
      exact h)
    (fun id _ d s ss st e hs h => by
      beta_reduce at h ⊢
      rw [eligibleOf_cons_official _ _ _ _ hs] at h
      apply hfinal _ (eligibleOf true id ss)
      · rw [postedOrder_afterPublishFail]
        intro x hx
        rcases List.mem_append.1 hx with hx | hx
        · exact h.1 x hx
        · simp only [List.mem_singleton] at hx
          subst hx
          simp
      · rw [postedOrder_afterPublishFail, candidates_afterPublishFail]
        simpa using h.2)
    (fun id _ d s ss st e r ok hs h => by
      beta_reduce at h ⊢
      rw [eligibleOf_cons_official _ _ _ _ hs] at h
      have hall : ∀ x ∈ postedOrder
          (afterPublishPut L b w Pass.disappearance id d s st e r ok).trace, x.1 = true := by
        rw [postedOrder_afterPublishPut]
        intro x hx
        rcases List.mem_append.1 hx with hx | hx
        · exact h.1 x hx
        · simp only [List.mem_singleton] at hx
          subst hx
          simp
      have hsub : (postedOrder (afterPublishPut L b w Pass.disappearance id d s st e r ok).trace
          ++ eligibleOf true id ss).Sublist
          (disappearedCandidates
            (afterPublishPut L b w Pass.disappearance id d s st e r ok).trace) := by
        rw [postedOrder_afterPublishPut, candidates_afterPublishPut]
        simpa using h.2
      exact ⟨fun _ => hfinal _ _ hall hsub, fun _ => ⟨hall, hsub⟩⟩)
    (fun id _ d st ok h => by
      beta_reduce at h ⊢
      have hall : ∀ x ∈ postedOrder (afterErase st id ok).trace, x.1 = true := by
        rw [postedOrder_afterErase]; exact h.1
      have hsub : (postedOrder (afterErase st id ok).trace).Sublist
          (disappearedCandidates (afterErase st id ok).trace) := by
        rw [postedOrder_afterErase, candidates_afterErase]
        simpa [eligibleOf] using h.2
      exact ⟨fun _ => hfinal _ [] hall (by simpa using hsub), fun _ => ⟨hall, hsub⟩⟩)
    ids ⟨m0, []⟩ ⟨by simp [postedOrder], by simp [postedOrder]⟩

theorem order_feedPass (L : Lib) (b : Bot) (w : World) (feed0 feed : List Disturbance)
    (st : TickState)
    (hp : (postedOrder st.trace).Pairwise (fun x y => y.1 = true → x.1 = true))
    (hs : (postedOrder st.trace ++ feedCandidates feed).Sublist
      (disappearedCandidates st.trace ++ feedCandidates feed0)) :
    (postedOrder (feedPass L b w feed st).2.trace).Pairwise
      (fun x y => y.1 = true → x.1 = true) ∧
    (postedOrder (feedPass L b w feed st).2.trace).Sublist
      (disappearedCandidates (feedPass L b w feed st).2.trace ++ feedCandidates feed0) := by
  have key := feedPass_rule L b w
    (fun rest st => (postedOrder st.trace).Pairwise (fun x y => y.1 = true → x.1 = true) ∧
      (postedOrder st.trace ++ feedCandidates rest).Sublist
        (disappearedCandidates st.trace ++ feedCandidates feed0))
    (fun pass d rest ss st => pass ≠ Pass.disappearance ∧
      (postedOrder st.trace).Pairwise (fun x y => y.1 = true → x.1 = true) ∧
      (postedOrder st.trace ++ (eligibleOf false d.Id ss ++ feedCandidates rest)).Sublist
        (disappearedCandidates st.trace ++ feedCandidates feed0))
    (fun st => (postedOrder st.trace).Pairwise (fun x y => y.1 = true → x.1 = true) ∧
      (postedOrder st.trace).Sublist
        (disappearedCandidates st.trace ++ feedCandidates feed0))
    ?_ ?_ ?_ ?_ ?_ ?_ ?_ ?_ feed st ⟨hp, hs⟩
  · cases hres : (feedPass L b w feed st).1 with
    | none =>
      have := key.1 hres
      beta_reduce at this
      exact order_final_of_sublist this.1 this.2
    | some err => exact key.2 err hres
  · intro d rest st ho h
    beta_reduce at h ⊢
    rw [feedCandidates_cons_unofficial _ _ ho] at h
    exact h
  · intro d rest st kd ho h _
    beta_reduce at h ⊢
    rw [feedCandidates_cons_official _ _ ho] at h
    refine ⟨by decide, h.1, ?_⟩
    refine List.Sublist.trans ?_ h.2
    exact (List.Sublist.refl _).append
      ((eligibleOf_newStatuses_sublist false d.Id d _).append (List.Sublist.refl _))
  · intro d rest st ok ho h _
    beta_reduce at h ⊢
    rw [feedCandidates_cons_official _ _ ho] at h
    have hp' : (postedOrder (afterCreate st d.Id ok).trace).Pairwise
        (fun x y => y.1 = true → x.1 = true) := by
      rw [postedOrder_afterCreate]; exact h.1
    have hs' : (postedOrder (afterCreate st d.Id ok).trace
        ++ (eligibleOf false d.Id d.statuses ++ feedCandidates rest)).Sublist
        (disappearedCandidates (afterCreate st d.Id ok).trace ++ feedCandidates feed0) := by
      rw [postedOrder_afterCreate, candidates_afterCreate]; exact h.2
    exact ⟨fun _ => order_final_of_sublist hp' hs', fun _ => ⟨by decide, hp', hs'⟩⟩
  · intro pass d rest ss st h
    beta_reduce at h ⊢
    exact order_final_of_sublist h.2.1 h.2.2
  · intro pass d rest s ss st hs h
    beta_reduce at h ⊢
    rw [eligibleOf_cons_unofficial _ _ _ _ hs] at h
    exact h
  · intro pass d rest s ss st e hs h
    beta_reduce at h ⊢
    rw [eligibleOf_cons_official _ _ _ _ hs] at h
    obtain ⟨hpass, hp, hsub⟩ := h
    have hdec : decide (pass = Pass.disappearance) = false := by simp [hpass]
    have hp' : (postedOrder (afterPublishFail L b w pass d.Id d s st e).trace).Pairwise
        (fun x y => y.1 = true → x.1 = true) := by
      rw [postedOrder_afterPublishFail, hdec]
      exact pairwise_snoc_feed hp
    have hs' : (postedOrder (afterPublishFail L b w pass d.Id d s st e).trace
        ++ (eligibleOf false d.Id ss ++ feedCandidates rest)).Sublist
        (disappearedCandidates (afterPublishFail L b w pass d.Id d s st e).trace
          ++ feedCandidates feed0) := by
      rw [postedOrder_afterPublishFail, candidates_afterPublishFail, hdec]
      simpa using hsub
    exact order_final_of_sublist hp' hs'
  · intro pass d rest s ss st e r ok hs h
    beta_reduce at h ⊢
    rw [eligibleOf_cons_official _ _ _ _ hs] at h
    obtain ⟨hpass, hp, hsub⟩ := h
    have hdec : decide (pass = Pass.disappearance) = false := by simp [hpass]
    have hp' : (postedOrder (afterPublishPut L b w pass d.Id d s st e r ok).trace).Pairwise
        (fun x y => y.1 = true → x.1 = true) := by
      rw [postedOrder_afterPublishPut, hdec]
      exact pairwise_snoc_feed hp
    have hs' : (postedOrder (afterPublishPut L b w pass d.Id d s st e r ok).trace
        ++ (eligibleOf false d.Id ss ++ feedCandidates rest)).Sublist
        (disappearedCandidates (afterPublishPut L b w pass d.Id d s st e r ok).trace
          ++ feedCandidates feed0) := by
      rw [postedOrder_afterPublishPut, candidates_afterPublishPut, hdec]
      simpa using hsub
    exact ⟨fun _ => order_final_of_sublist hp' hs', fun _ => ⟨hpass, hp', hs'⟩⟩
  · intro pass d rest st h
    beta_reduce at h ⊢
    exact ⟨h.2.1, by simpa [eligibleOf] using h.2.2⟩

/-- C8, amended. In every run of `tick` over the ongoing feed `feed`: no
post of the disappearance branch is published after a post of the loop over
the feed; and the posts are published in the order of the candidates, which
are, for each by-id record fetched, in fetch order, its officially-sourced
statuses in upstream order, followed by, for each officially-flagged
disturbance of the feed, in feed order and whether it was tracked or new, its
officially-sourced statuses in upstream order. -/
theorem posts_follow_pass_then_feed_order (L : Lib) (b : Bot) (w : World)
    (m0 : BotStorageModel) (feed : List Disturbance)
    (hfeed : w.listDisturbances = some feed) :
    (postedOrder (tick L b w m0).2.trace).Pairwise (fun x y => y.1 = true → x.1 = true) ∧
    (postedOrder (tick L b w m0).2.trace).Sublist
      (disappearedCandidates (tick L b w m0).2.trace ++ feedCandidates feed) := by
  have key := tick_compose L b w m0 feed hfeed
    (fun st => (∀ x ∈ postedOrder st.trace, x.1 = true) ∧
      (postedOrder st.trace).Sublist (disappearedCandidates st.trace))
    (fun st => (postedOrder st.trace).Pairwise (fun x y => y.1 = true → x.1 = true) ∧
      (postedOrder st.trace).Sublist (disappearedCandidates st.trace ++ feedCandidates feed))
    (fun st => (postedOrder st.trace).Pairwise (fun x y => y.1 = true → x.1 = true) ∧
      (postedOrder st.trace).Sublist (disappearedCandidates st.trace ++ feedCandidates feed))
    (order_disappearancePass L b w m0 feed m0.KnownDisturbances.keys) ?_
  · cases hres : (tick L b w m0).1 with
    | none => exact key.1 hres
    | some err => exact key.2 err hres
  · intro st hst
    have := order_feedPass L b w feed feed st
      (List.pairwise_of_forall_mem_list (fun x hx _ _ _ => hst.1 x hx))
      (hst.2.append (List.Sublist.refl _))
    exact ⟨fun _ => this, fun _ _ => this⟩

/-! ## Disappearance drains fully -/

theorem DrainedOnto.snoc_drained (id : String) (s : LineStatus) (p : FeedPost) (r : String × String)
    (m : BotStorageModel) :
    ∀ (done : List LineStatus) (chain : List KnownStatus) (evs : List Event)
      (final : List KnownStatus),
      DrainedOnto id chain done evs final →
      p.Reply = replyRef final →
      (∃ kd, m.KnownDisturbances.lookup id = some kd ∧
        kd.KnownStatuses = final ++ [⟨s.Id, r.1, r.2⟩]) →
      DrainedOnto id chain (done ++ [s])
        (evs ++ [Event.publish Pass.disappearance id final s p (some r), Event.put m true])
        (final ++ [⟨s.Id, r.1, r.2⟩]) := by
  intro done
  induction done with
  | nil =>
    intro chain evs final h hp hm
    obtain ⟨rfl, rfl⟩ := h
    exact ⟨p, r, m, [], rfl, hp, hm, rfl, rfl⟩
  | cons s0 done ih =>
    intro chain evs final h hp hm
    obtain ⟨p0, r0, m0, rest, hevs, hp0, hm0, hrest⟩ := h
    refine ⟨p0, r0, m0, rest ++ [Event.publish Pass.disappearance id final s p (some r),
      Event.put m true], ?_, hp0, hm0, ih _ _ _ hrest hp hm⟩
    rw [hevs]
    rfl

theorem DrainedThenDeleted.snoc_deleted {m0 : BotStorageModel} {id : String} {tr : List Event}
    (h : DrainedThenDeleted m0 id tr) (e : Event) (he : e.publishesFor id = false) :
    DrainedThenDeleted m0 id (tr ++ [e]) := by
  obtain ⟨d, pre, evs, final, mdel, post, htr, hd, hdel, hpre, hpost⟩ := h
  refine ⟨d, pre, evs, final, mdel, post ++ [e], ?_, hd, hdel, hpre, ?_⟩
  · rw [htr]
    simp
  · intro x hx
    rcases List.mem_append.1 hx with hx | hx
    · exact hpost x hx
    · simp only [List.mem_singleton] at hx
      rw [hx]
      exact he

theorem NotYetDrained.snoc_pending {m0 : BotStorageModel} {id : String} {st : TickState}
    (h : NotYetDrained m0 id st) (m : BotStorageModel) (e : Event)
    (hm : m.KnownDisturbances.lookup id = st.model.KnownDisturbances.lookup id)
    (he : e.publishesFor id = false) (hs : e.savesWith id) :
    NotYetDrained m0 id ⟨m, st.trace ++ [e]⟩ := by
  refine ⟨hm.trans h.1, ?_⟩
  intro x hx
  rcases List.mem_append.1 hx with hx | hx
  · exact h.2 x hx
  · simp only [List.mem_singleton] at hx
    rw [hx]
    exact ⟨he, hs⟩

theorem mem_of_lookup_eq {m m0 : DisturbanceMap} {id : String}
    (h : m.lookup id = m0.lookup id) (hid : id ∈ m0) : id ∈ m := by
  rw [← AList.lookup_isSome] at hid ⊢
  rw [h]
  exact hid

theorem publishEvent_publishesFor_ne (L : Lib) (b : Bot) (w : World) (pass : Pass)
    (key id : String) (d : Disturbance) (s : LineStatus) (st : TickState) (e : EmbedExternal)
    (ans : Option (String × String)) (h : key ≠ id) :
    (publishEvent L b w pass key d s st e ans).publishesFor id = false := by
  simp [publishEvent, Event.publishesFor, h]

theorem elsewhere_fetch {m0 : BotStorageModel} {id : String} {rest : List String}
    {st : TickState} (h : Elsewhere m0 id rest st) (id' : String) (ans : Option Disturbance) :
    Elsewhere m0 id rest (afterFetch st id' ans) := by
  rcases h with ⟨h1, h2⟩ | ⟨h1, h2⟩
  · exact Or.inl ⟨h1, h2.snoc_pending st.model _ rfl rfl trivial⟩
  · exact Or.inr ⟨h1, h2.snoc_deleted _ rfl⟩

theorem elsewhere_publishPut (L : Lib) (b : Bot) (w : World) {m0 : BotStorageModel}
    {id : String} (hid : id ∈ m0.KnownDisturbances) {rest : List String} {st : TickState}
    (h : Elsewhere m0 id rest st) (pass : Pass) (key : String) (d : Disturbance)
    (s : LineStatus) (e : EmbedExternal) (r : String × String) (ok : Bool) (hkey : key ≠ id) :
    Elsewhere m0 id rest (afterPublishPut L b w pass key d s st e r ok) := by
  have hne : id ≠ key := fun h => hkey h.symm
  have hlk : (modelWithPost key s st r).KnownDisturbances.lookup id
      = st.model.KnownDisturbances.lookup id := by
    simp [modelWithPost, AList.lookup_insert_ne hne]
  have htr : (afterPublishPut L b w pass key d s st e r ok).trace
      = (st.trace ++ [publishEvent L b w pass key d s st e (some r)])
        ++ [Event.put (modelWithPost key s st r) ok] := by
    simp [afterPublishPut]
  rcases h with ⟨h1, h2⟩ | ⟨h1, h2⟩
  · left
    refine ⟨h1, ?_⟩
    have hmem : id ∈ (modelWithPost key s st r).KnownDisturbances :=
      mem_of_lookup_eq (hlk.trans h2.1) hid
    have step1 := h2.snoc_pending st.model (publishEvent L b w pass key d s st e (some r)) rfl
      (publishEvent_publishesFor_ne L b w pass key id d s st e _ hkey) (by
        simp [publishEvent, Event.savesWith])
    have step2 := step1.snoc_pending (modelWithPost key s st r)
      (Event.put (modelWithPost key s st r) ok) hlk rfl hmem
    have hst : afterPublishPut L b w pass key d s st e r ok
        = ⟨modelWithPost key s st r,
            (st.trace ++ [publishEvent L b w pass key d s st e (some r)])
              ++ [Event.put (modelWithPost key s st r) ok]⟩ := by
      simp [afterPublishPut]
    rw [hst]
    exact step2
  · right
    refine ⟨h1, ?_⟩
    rw [htr]
    exact (h2.snoc_deleted _ (publishEvent_publishesFor_ne L b w pass key id d s st e _ hkey)).snoc_deleted _ rfl

theorem elsewhere_erase {m0 : BotStorageModel} {id : String}
    (hid : id ∈ m0.KnownDisturbances) {rest : List String} {st : TickState}
    (h : Elsewhere m0 id rest st) (id' : String) (ok : Bool) (hne : id' ≠ id) :
    Elsewhere m0 id rest (afterErase st id' ok) := by
  have hne' : id ≠ id' := fun h => hne h.symm
  have hlk : (st.model.KnownDisturbances.erase id').lookup id
      = st.model.KnownDisturbances.lookup id := AList.lookup_erase_ne hne'
  rcases h with ⟨h1, h2⟩ | ⟨h1, h2⟩
  · left
    refine ⟨h1, ?_⟩
    exact h2.snoc_pending ⟨st.model.KnownDisturbances.erase id'⟩ _ hlk rfl
      (mem_of_lookup_eq (hlk.trans h2.1) hid)
  · exact Or.inr ⟨h1, h2.snoc_deleted _ rfl⟩

theorem draining_enter {m0 : BotStorageModel} {id : String} {st : TickState}
    (h : NotYetDrained m0 id st) (d : Disturbance) :
    Draining m0 id d (newStatusesOf d (st.entry id).KnownStatuses)
      (afterFetch st id (some d)) := by
  have hentry : st.entry id = m0.KnownDisturbances.index id := by
    simp [TickState.entry, DisturbanceMap.index, h.1]
  refine ⟨st.trace, [], [], _, rfl, h.2, ⟨rfl, rfl⟩, ?_, ?_⟩
  · simp only [afterFetch]
    exact congrArg KnownDisturbance.KnownStatuses hentry
  · simp [drainList, hentry]

theorem draining_skip {m0 : BotStorageModel} {id : String} {d : Disturbance} {s : LineStatus}
    {ss : List LineStatus} {st : TickState} (hs : s.official = false)
    (h : Draining m0 id d (s :: ss) st) : Draining m0 id d ss st := by
  obtain ⟨pre, evs, done, final, h1, h2, h3, h4, h5⟩ := h
  refine ⟨pre, evs, done, final, h1, h2, h3, h4, ?_⟩
  rw [← h5]
  simp [List.filter_cons, hs]

theorem draining_publishPut (L : Lib) (b : Bot) (w : World) {m0 : BotStorageModel}
    {id : String} {d : Disturbance} {s : LineStatus} {ss : List LineStatus} {st : TickState}
    (hs : s.official = true) (h : Draining m0 id d (s :: ss) st) (e : EmbedExternal)
    (r : String × String) :
    Draining m0 id d ss (afterPublishPut L b w Pass.disappearance id d s st e r true) := by
  obtain ⟨pre, evs, done, final, h1, h2, h3, h4, h5⟩ := h
  refine ⟨pre, evs ++ [publishEvent L b w Pass.disappearance id d s st e (some r),
    Event.put (modelWithPost id s st r) true], done ++ [s], final ++ [⟨s.Id, r.1, r.2⟩],
    ?_, h2, ?_, ?_, ?_⟩
  · simp [afterPublishPut, h1]
  · have := DrainedOnto.snoc_drained id s
      (postWithEmbed L b w (st.entry id).KnownStatuses d s st e) r (modelWithPost id s st r)
      done _ evs final h3 (by rw [← h4]; rfl)
      ⟨_, AList.lookup_insert _, by rw [h4]; rfl⟩
    simpa [publishEvent, h4] using this
  · simp [afterPublishPut, modelWithPost, TickState.entry, index_insert_self, knownStatusOf]
    exact h4
  · rw [← h5]
    simp [List.filter_cons, hs]

theorem draining_leave {m0 : BotStorageModel} {id : String} {d : Disturbance} {st : TickState}
    (h : Draining m0 id d [] st) :
    DrainedThenDeleted m0 id (afterErase st id true).trace := by
  obtain ⟨pre, evs, done, final, h1, h2, h3, -, h5⟩ := h
  simp only [List.filter_nil, List.append_nil] at h5
  subst h5
  refine ⟨d, pre, evs, final, ⟨st.model.KnownDisturbances.erase id⟩, [], ?_, h3, ?_, h2, ?_⟩
  · simp [afterErase, h1]
  · simp [AList.mem_erase]
  · simp

theorem drained_after_disappearancePass (L : Lib) (b : Bot) (w : World) (m0 : BotStorageModel)
    (seen : List String) (id : String) (hid : id ∈ m0.KnownDisturbances) (hseen : id ∉ seen)
    (hok : (disappearancePass L b w seen m0.KnownDisturbances.keys ⟨m0, []⟩).1 = none) :
    DrainedThenDeleted m0 id
      (disappearancePass L b w seen m0.KnownDisturbances.keys ⟨m0, []⟩).2.trace := by
  have key := disappearancePass_rule L b w seen
    (fun rest st => rest.Nodup ∧ Elsewhere m0 id rest st)
    (fun id' rest d ss st => (id' :: rest).Nodup ∧
      ((id' = id ∧ Draining m0 id d ss st) ∨ (id' ≠ id ∧ Elsewhere m0 id rest st)))
    (fun _ => True)
    ?_ ?_ ?_ ?_ ?_ ?_ ?_ ?_ m0.KnownDisturbances.keys ⟨m0, []⟩
    ⟨m0.KnownDisturbances.keys_nodup, Or.inl ⟨hid, rfl, by simp⟩⟩
  · rcases (key.1 hok).2 with ⟨h, -⟩ | ⟨-, h⟩
    · simp at h
    · exact h
  · intro id' rest st hs h
    beta_reduce at h ⊢
    refine ⟨(List.nodup_cons.1 h.1).2, ?_⟩
    rcases h.2 with ⟨h1, h2⟩ | ⟨h1, h2⟩
    · rcases List.mem_cons.1 h1 with rfl | h1
      · exact (hseen hs).elim
      · exact Or.inl ⟨h1, h2⟩
    · exact Or.inr ⟨fun hm => h1 (List.mem_cons_of_mem _ hm), h2⟩
  · intro _ _ _ _ _
    trivial
  · intro id' rest st d _ h
    beta_reduce at h ⊢
    refine ⟨h.1, ?_⟩
    by_cases hii : id' = id
    · subst hii
      rcases h.2 with ⟨-, h2⟩ | ⟨h1, -⟩
      · exact Or.inl ⟨rfl, draining_enter h2 d⟩
      · exact (h1 (List.mem_cons_self _ _)).elim
    · right
      refine ⟨hii, elsewhere_fetch ?_ id' (some d)⟩
      rcases h.2 with ⟨h1, h2⟩ | ⟨h1, h2⟩
      · rcases List.mem_cons.1 h1 with rfl | h1
        · exact (hii rfl).elim
        · exact Or.inl ⟨h1, h2⟩
      · exact Or.inr ⟨fun hm => h1 (List.mem_cons_of_mem _ hm), h2⟩
  · intro _ _ _ _ _ _
    trivial
  · intro id' rest d s ss st hs h
    beta_reduce at h ⊢
    refine ⟨h.1, ?_⟩
    rcases h.2 with ⟨h1, h2⟩ | h2
    · exact Or.inl ⟨h1, draining_skip hs h2⟩
    · exact Or.inr h2
  · intro _ _ _ _ _ _ _ _ _
    trivial
  · intro id' rest d s ss st e r ok hs h
    beta_reduce at h ⊢
    refine ⟨fun _ => trivial, fun hok' => ⟨h.1, ?_⟩⟩
    subst hok'
    rcases h.2 with ⟨h1, h2⟩ | ⟨h1, h2⟩
    · subst h1
      exact Or.inl ⟨rfl, draining_publishPut L b w hs h2 e r⟩
    · exact Or.inr ⟨h1, elsewhere_publishPut L b w hid h2 _ id' d s e r true h1⟩
  · intro id' rest d st ok h
    beta_reduce at h ⊢
    refine ⟨fun _ => trivial, fun hok' => ⟨(List.nodup_cons.1 h.1).2, ?_⟩⟩
    subst hok'
    rcases h.2 with ⟨h1, h2⟩ | ⟨h1, h2⟩
    · subst h1
      exact Or.inr ⟨(List.nodup_cons.1 h.1).1, draining_leave h2⟩
    · exact elsewhere_erase hid h2 id' true h1

theorem drained_after_feedPass (L : Lib) (b : Bot) (w : World) (m0 : BotStorageModel)
    (id : String) (feed : List Disturbance)
    (habsent : ∀ d ∈ feed, d.official = true → d.Id ≠ id) (st : TickState)
    (h : DrainedThenDeleted m0 id st.trace) :
    DrainedThenDeleted m0 id (feedPass L b w feed st).2.trace := by
  have key := feedPass_rule L b w
    (fun rest st => (∀ d ∈ rest, d.official = true → d.Id ≠ id) ∧
      DrainedThenDeleted m0 id st.trace)
    (fun _ d rest _ st => d.Id ≠ id ∧ (∀ d ∈ rest, d.official = true → d.Id ≠ id) ∧
      DrainedThenDeleted m0 id st.trace)
    (fun st => DrainedThenDeleted m0 id st.trace)
    ?_ ?_ ?_ ?_ ?_ ?_ ?_ ?_ feed st ⟨habsent, h⟩
  · cases hres : (feedPass L b w feed st).1 with
    | none => exact (key.1 hres).2
    | some err => exact key.2 err hres
  · intro d rest st _ h
    exact ⟨fun d' hd' => h.1 d' (List.mem_cons_of_mem _ hd'), h.2⟩
  · intro d rest st kd ho h _
    exact ⟨h.1 d (List.mem_cons_self _ _) ho,
      fun d' hd' => h.1 d' (List.mem_cons_of_mem _ hd'), h.2⟩
  · intro d rest st ok ho h _
    have : DrainedThenDeleted m0 id (afterCreate st d.Id ok).trace := h.2.snoc_deleted _ rfl
    exact ⟨fun _ => this, fun _ => ⟨h.1 d (List.mem_cons_self _ _) ho,
      fun d' hd' => h.1 d' (List.mem_cons_of_mem _ hd'), this⟩⟩
  · intro pass d rest ss st h
    exact h.2.2
  · intro pass d rest s ss st _ h
    exact h
  · intro pass d rest s ss st e _ h
    exact h.2.2.snoc_deleted _ (publishEvent_publishesFor_ne L b w pass d.Id id d s st e _ h.1)
  · intro pass d rest s ss st e r ok _ h
    have : DrainedThenDeleted m0 id (afterPublishPut L b w pass d.Id d s st e r ok).trace := by
      have htr : (afterPublishPut L b w pass d.Id d s st e r ok).trace
          = (st.trace ++ [publishEvent L b w pass d.Id d s st e (some r)])
            ++ [Event.put (modelWithPost d.Id s st r) ok] := by
        simp [afterPublishPut]
      rw [htr]
      exact (h.2.2.snoc_deleted _
        (publishEvent_publishesFor_ne L b w pass d.Id id d s st e _ h.1)).snoc_deleted _ rfl
    exact ⟨fun _ => this, fun _ => ⟨h.1, h.2.1, this⟩⟩
  · intro pass d rest st h
    exact ⟨h.2.1, h.2.2⟩

theorem later_statuses_suffix_of_newStatuses (d : Disturbance) (known : List KnownStatus)
    (n : Nat) (hn : known.length ≤ n) :
    ((d.statuses.drop n).filter (fun s => s.official)) <:+
      ((newStatusesOf d known).filter (fun s => s.official)) := by
  unfold newStatusesOf
  have hmin : min d.statuses.length known.length ≤ n := le_trans (min_le_right _ _) hn
  have : d.statuses.drop n
      = (d.statuses.drop (min d.statuses.length known.length)).drop
          (n - min d.statuses.length known.length) := by
    rw [List.drop_drop]
    congr 1
    omega
  rw [this]
  exact (List.drop_suffix _ _).filter _

/-- C5, amended. For a tracked disturbance `id` that no officially-flagged
disturbance of the ongoing feed carries, a run of `tick` that returns without
error fetches its record, then publishes, in upstream order, every
officially-sourced status of the record from upstream index
min(len(upstream), len(KnownStatuses)) on, which includes every one not yet
posted; each publish call is made with the chain so far (the existing
KnownStatuses followed by the records of the posts just made), so its post
carries no reply reference when that chain is empty and otherwise replies
with root = first entry of the chain and parent = the latest; each is followed
by a completed `Put` of a model whose entry holds the extended chain; and the
first model saved without the entry comes after the last of these posts was
published and saved.  The statuses published include every
officially-sourced status at an upstream index `n` or later, for any `n` not
below the number of known statuses, in the same order.  No other post is made
for `id`, and the final model does not track it. -/
theorem disappearance_drains_then_deletes (L : Lib) (b : Bot) (w : World)
    (m0 : BotStorageModel) (feed : List Disturbance) (id : String)
    (hfeed : w.listDisturbances = some feed)
    (hid : id ∈ m0.KnownDisturbances)
    (habsent : ∀ d ∈ feed, d.official = true → d.Id ≠ id)
    (hok : (tick L b w m0).1 = none) :
    (∃ d pre evs final mdel post,
      (tick L b w m0).2.trace
        = pre ++ Event.fetch id (some d) :: (evs ++ Event.put mdel true :: post) ∧
      DrainedOnto id (m0.KnownDisturbances.index id).KnownStatuses
        ((newStatusesOf d (m0.KnownDisturbances.index id).KnownStatuses).filter
          (fun s => s.official)) evs final ∧
      id ∉ mdel.KnownDisturbances ∧
      (∀ e ∈ pre, e.publishesFor id = false ∧ e.savesWith id) ∧
      (∀ e ∈ post, e.publishesFor id = false) ∧
      (∀ n, (m0.KnownDisturbances.index id).KnownStatuses.length ≤ n →
        ((d.statuses.drop n).filter (fun s => s.official)) <:+
          ((newStatusesOf d (m0.KnownDisturbances.index id).KnownStatuses).filter
            (fun s => s.official)))) ∧
    id ∉ (tick L b w m0).2.model.KnownDisturbances := by
  have hseen : id ∉ seenDisturbances feed := by
    simp only [seenDisturbances, List.mem_map, List.mem_filter, not_exists, not_and]
    intro d hd hdid
    exact habsent d hd.1 hd.2 hdid
  refine ⟨?_, fun hmem => hseen ((chainInv_tick_of_success L b w m0 feed hfeed hok).2.2 id hmem)⟩
  have key := tick_compose L b w m0 feed hfeed
    (fun st => DrainedThenDeleted m0 id st.trace)
    (fun st => DrainedThenDeleted m0 id st.trace) (fun _ => True)
    ⟨fun h => drained_after_disappearancePass L b w m0 _ id hid hseen h, fun _ _ => trivial⟩ ?_
  · obtain ⟨d, pre, evs, final, mdel, post, h1, h2, h3, h4, h5⟩ := key.1 hok
    exact ⟨d, pre, evs, final, mdel, post, h1, h2, h3, h4, h5,
      fun n hn => later_statuses_suffix_of_newStatuses d _ n hn⟩
  · intro st hst
    have := drained_after_feedPass L b w m0 id feed habsent st hst
    exact ⟨fun _ => this, fun _ _ => trivial⟩

/-! ## Concrete runs -/

/-- C1, the failing input. The checkpoint holds the one officially-sourced
status `a` of disturbance `d1`, whose upstream list is a non-official status
followed by `a`; the feed lists `d1`.  One run of `tick` returns without
error, publishes `a` again and leaves a checkpoint with two records. -/
theorem idempotence_fails_after_skipped_status :
    (tick sampleLib sampleBot
        (sampleWorld [plainDisturbance "d1" [sampleStatus "n" false, sampleStatus "a" true]]
          byIdNone) checkpointOnePosted).1 = none ∧
    publishedOf (tick sampleLib sampleBot
        (sampleWorld [plainDisturbance "d1" [sampleStatus "n" false, sampleStatus "a" true]]
          byIdNone) checkpointOnePosted).2.trace
      = [(Pass.update, "d1", sampleStatus "a" true)] ∧
    (tick sampleLib sampleBot
        (sampleWorld [plainDisturbance "d1" [sampleStatus "n" false, sampleStatus "a" true]]
          byIdNone) checkpointOnePosted).2.model
      = sampleCheckpoint "d1" [⟨"a", "c0", "u0"⟩, ⟨"a", "c", "u"⟩] := by
  decide

/-- C2, the failing input. The upstream list of the tracked disturbance `d1`
is a non-official status, then `a`, then `b`; the checkpoint records the
posts made for the indices 0..1, that is one known status, for `a`.  One run
of `tick` in which every call succeeds publishes `a`, at index 1, again
before it publishes `b`. -/
theorem resumption_reposts_after_skipped_status :
    (tick sampleLib sampleBot
        (sampleWorld [plainDisturbance "d1"
          [sampleStatus "n" false, sampleStatus "a" true, sampleStatus "b" true]] byIdNone)
        checkpointOnePosted).1 = none ∧
    publishedOf (tick sampleLib sampleBot
        (sampleWorld [plainDisturbance "d1"
          [sampleStatus "n" false, sampleStatus "a" true, sampleStatus "b" true]] byIdNone)
        checkpointOnePosted).2.trace
      = [(Pass.update, "d1", sampleStatus "a" true), (Pass.update, "d1", sampleStatus "b" true)] := by
  decide

/-- C5, counterexample. A tracked disturbance with no post yet leaves the
feed and its record has an officially-sourced status: the run succeeds and
the one post made for it carries no reply reference. -/
theorem drained_post_on_empty_chain_has_no_reply :
    "d1" ∈ (sampleCheckpoint "d1" []).KnownDisturbances ∧
    (tick sampleLib sampleBot
        (sampleWorld [] (byIdOnly "d1" (plainDisturbance "d1" [sampleStatus "a" true])))
        (sampleCheckpoint "d1" [])).1 = none ∧
    publishedOf (tick sampleLib sampleBot
        (sampleWorld [] (byIdOnly "d1" (plainDisturbance "d1" [sampleStatus "a" true])))
        (sampleCheckpoint "d1" [])).2.trace
      = [(Pass.disappearance, "d1", sampleStatus "a" true)] ∧
    (postsOf (tick sampleLib sampleBot
        (sampleWorld [] (byIdOnly "d1" (plainDisturbance "d1" [sampleStatus "a" true])))
        (sampleCheckpoint "d1" [])).2.trace).map (fun p => p.Reply) = [none] := by
  decide

/-- The hypotheses of `disappearance_drains_then_deletes` hold of a run in
which `d1`, tracked with one post, left the feed with one more status. -/
theorem disappearance_drains_then_deletes_witness :
    worldWithGone.listDisturbances = some [plainDisturbance "d2" [sampleStatus "x" true]] ∧
    "d1" ∈ checkpointOnePosted.KnownDisturbances ∧
    (∀ d ∈ [plainDisturbance "d2" [sampleStatus "x" true]], d.official = true → d.Id ≠ "d1") ∧
    (tick sampleLib sampleBot worldWithGone checkpointOnePosted).1 = none ∧
    ((∃ d pre evs final mdel post,
      (tick sampleLib sampleBot worldWithGone checkpointOnePosted).2.trace
        = pre ++ Event.fetch "d1" (some d) :: (evs ++ Event.put mdel true :: post) ∧
      DrainedOnto "d1" (checkpointOnePosted.KnownDisturbances.index "d1").KnownStatuses
        ((newStatusesOf d (checkpointOnePosted.KnownDisturbances.index "d1").KnownStatuses).filter
          (fun s => s.official)) evs final ∧
      "d1" ∉ mdel.KnownDisturbances ∧
      (∀ e ∈ pre, e.publishesFor "d1" = false ∧ e.savesWith "d1") ∧
      (∀ e ∈ post, e.publishesFor "d1" = false) ∧
      (∀ n, (checkpointOnePosted.KnownDisturbances.index "d1").KnownStatuses.length ≤ n →
        ((d.statuses.drop n).filter (fun s => s.official)) <:+
          ((newStatusesOf d
            (checkpointOnePosted.KnownDisturbances.index "d1").KnownStatuses).filter
            (fun s => s.official)))) ∧
    "d1" ∉ (tick sampleLib sampleBot worldWithGone checkpointOnePosted).2.model.KnownDisturbances) :=
  ⟨rfl, by decide, by decide, by decide,
   disappearance_drains_then_deletes sampleLib sampleBot worldWithGone checkpointOnePosted
     [plainDisturbance "d2" [sampleStatus "x" true]] "d1" rfl (by decide) (by decide)
     (by decide)⟩

set_option maxRecDepth 100000 in
/-- C6, counterexample. A constructed text of 340 bytes is posted as a text
of 300 bytes, not 298: the marker appended after the first 295 bytes has 5
bytes, not 3. -/
theorem truncated_text_has_300_units :
    (constructedText sampleLib sampleBot (plainDisturbance "d1" []) (longStatus 326)).length = 340 ∧
    (postsOf (sendPostForStatus sampleLib sampleBot (sampleWorld [] byIdNone)
      Pass.newDisturbance "d1" [] (plainDisturbance "d1" []) (longStatus 326) ⟨⟨∅⟩, []⟩).2.trace).map
        (fun p => p.Text.length) = [300] ∧
    strEllipsis.length = 5 := by
  decide

set_option maxRecDepth 100000 in
/-- The hypotheses of `truncation_posted_text` hold of a description of 326
bytes, which makes a text of 340. -/
theorem truncation_posted_text_witness :
    300 < (constructedText sampleLib sampleBot (plainDisturbance "d1" []) (longStatus 326)).length ∧
    (postWithEmbed sampleLib sampleBot (sampleWorld [] byIdNone) [] (plainDisturbance "d1" [])
        (longStatus 326) ⟨⟨∅⟩, []⟩
        ⟨"app.bsky.embed.external", "https://example.org/d/d1", "title", "description", none⟩).Text.length
      = 300 :=
  ⟨by decide,
   (truncation_posted_text sampleLib sampleBot (sampleWorld [] byIdNone)
      Pass.newDisturbance "d1" [] (plainDisturbance "d1" []) (longStatus 326) ⟨⟨∅⟩, []⟩
      _ (some ("c", "u")) (by decide) (by rfl)).2.1⟩

/-- C8, counterexample. The feed lists a disturbance seen for the first time
before a tracked one with a new status: the post of the new-disturbance
branch is published before the post of the update branch. -/
theorem new_disturbance_post_precedes_update_post :
    publishedOf (tick sampleLib sampleBot (sampleWorld feedNewThenTracked byIdNone)
        checkpointOnePosted).2.trace
      = [(Pass.newDisturbance, "d2", sampleStatus "x" true),
         (Pass.update, "d1", sampleStatus "b" true)] := by
  decide

/-- The hypothesis of `posts_follow_pass_then_feed_order` holds of a run with
a disappeared and a new disturbance. -/
theorem posts_follow_pass_then_feed_order_witness :
    worldWithGone.listDisturbances = some [plainDisturbance "d2" [sampleStatus "x" true]] ∧
    (postedOrder (tick sampleLib sampleBot worldWithGone checkpointOnePosted).2.trace).Pairwise
      (fun x y => y.1 = true → x.1 = true) ∧
    (postedOrder (tick sampleLib sampleBot worldWithGone checkpointOnePosted).2.trace).Sublist
      (disappearedCandidates (tick sampleLib sampleBot worldWithGone checkpointOnePosted).2.trace
        ++ feedCandidates [plainDisturbance "d2" [sampleStatus "x" true]]) :=
  ⟨rfl, posts_follow_pass_then_feed_order sampleLib sampleBot worldWithGone checkpointOnePosted
    [plainDisturbance "d2" [sampleStatus "x" true]] rfl⟩

/-- The hypotheses of `tracked_set_equals_official_feed` hold of a run in
which `d1` left the feed and `d2` entered it. -/
theorem tracked_set_equals_official_feed_witness :
    worldWithGone.listDisturbances = some [plainDisturbance "d2" [sampleStatus "x" true]] ∧
    (tick sampleLib sampleBot worldWithGone checkpointOnePosted).1 = none ∧
    ∀ id, id ∈ (tick sampleLib sampleBot worldWithGone checkpointOnePosted).2.model.KnownDisturbances ↔
      ∃ d ∈ [plainDisturbance "d2" [sampleStatus "x" true]], d.Official = some true ∧ d.Id = id :=
  ⟨rfl, by decide,
   tracked_set_equals_official_feed sampleLib sampleBot worldWithGone checkpointOnePosted
     [plainDisturbance "d2" [sampleStatus "x" true]] rfl (by decide)⟩

set_option maxRecDepth 100000 in
/-- C10, the failing input. The constructed text is valid UTF-8 and 306
bytes long, with the two bytes of `é` at offsets 294 and 295; the text posted
keeps the first of the two and is not valid UTF-8. -/
theorem truncation_splits_character :
    validUTF8 (constructedText sampleLib sampleBot (plainDisturbance "d1" []) accentStatus) = true ∧
    (postsOf (sendPostForStatus sampleLib sampleBot (sampleWorld [] byIdNone)
      Pass.newDisturbance "d1" [] (plainDisturbance "d1" []) accentStatus ⟨⟨∅⟩, []⟩).2.trace).map
        (fun p => (validUTF8 p.Text, p.Text.length, p.Text.drop 293)) =
      [(false, 300, [97, 195, 40, 226, 128, 166, 41])] := by
  decide

/-- C7, counterexample. The disturbance `d1`, tracked with one post, leaves
the feed with two more statuses: the run publishes `b` and then `c`, and the
last checkpoint it saves, after deleting the entry, is empty, so it records
neither, although `b` is not the most recent post. -/
theorem deleted_entry_takes_its_records :
    publishedOf (tick sampleLib sampleBot worldGoneTwo checkpointOnePosted).2.trace
      = [(Pass.disappearance, "d1", sampleStatus "b" true),
         (Pass.disappearance, "d1", sampleStatus "c" true)] ∧
    (tick sampleLib sampleBot worldGoneTwo checkpointOnePosted).2.trace.getLast?
      = some (Event.put ⟨∅⟩ true) := by
  decide

/-- The second `Put` of the same run: its model tracks `d1` and holds the
record of the post made for `b` before it. -/
theorem persist_after_every_post_witness :
    (tick sampleLib sampleBot worldGoneTwo checkpointOnePosted).2.trace
      = (tick sampleLib sampleBot worldGoneTwo checkpointOnePosted).2.trace.take 2
        ++ Event.put (sampleCheckpoint "d1" [⟨"a", "c0", "u0"⟩, ⟨"b", "ci", "ui"⟩]) true
          :: (tick sampleLib sampleBot worldGoneTwo checkpointOnePosted).2.trace.drop 3 ∧
    "d1" ∈ (sampleCheckpoint "d1" [⟨"a", "c0", "u0"⟩, ⟨"b", "ci", "ui"⟩]).KnownDisturbances ∧
    (⟨"b", "ci", "ui"⟩ : KnownStatus) ∈ resultsOf "d1"
      ((tick sampleLib sampleBot worldGoneTwo checkpointOnePosted).2.trace.take 2) ∧
    (⟨"b", "ci", "ui"⟩ : KnownStatus) ∈
      ((sampleCheckpoint "d1" [⟨"a", "c0", "u0"⟩, ⟨"b", "ci", "ui"⟩]).KnownDisturbances.index
        "d1").KnownStatuses :=
  ⟨by decide, by decide, by decide,
   (persist_after_every_post sampleLib sampleBot worldGoneTwo checkpointOnePosted).2.2
     ((tick sampleLib sampleBot worldGoneTwo checkpointOnePosted).2.trace.take 2)
     (sampleCheckpoint "d1" [⟨"a", "c0", "u0"⟩, ⟨"b", "ci", "ui"⟩]) true
     ((tick sampleLib sampleBot worldGoneTwo checkpointOnePosted).2.trace.drop 3)
     (by decide) "d1" (by decide) ⟨"b", "ci", "ui"⟩ (by decide)⟩

/-- The final model of a run tracks `d2`, whose one known status records the
publish call made for its officially-sourced status. -/
theorem non_official_never_posted_witness :
    (tick sampleLib sampleBot worldWithGone checkpointOnePosted).2.model.KnownDisturbances.lookup
        "d2" = some ⟨"d2", [⟨"x", "ciiiii", "uiiiii"⟩]⟩ ∧
    ((⟨"x", "ciiiii", "uiiiii"⟩ : KnownStatus) ∈
        (checkpointOnePosted.KnownDisturbances.index "d2").KnownStatuses ∨
      ∃ pass sent s p r,
        Event.publish pass "d2" sent s p (some r) ∈
          (tick sampleLib sampleBot worldWithGone checkpointOnePosted).2.trace ∧
        s.OfficialSource = some true ∧ (⟨"x", "ciiiii", "uiiiii"⟩ : KnownStatus) = ⟨s.Id, r.1, r.2⟩) :=
  ⟨by decide,
   (non_official_never_posted sampleLib sampleBot worldWithGone checkpointOnePosted).2 _
     (Or.inl rfl) "d2" ⟨"d2", [⟨"x", "ciiiii", "uiiiii"⟩]⟩ (by decide) _ (by decide)⟩

/-- The final model of a run tracks `d2` and holds for it the chain made in
the run. -/
theorem threading_is_a_linear_chain_witness :
    "d2" ∈ (tick sampleLib sampleBot worldWithGone checkpointOnePosted).2.model.KnownDisturbances ∧
    ((tick sampleLib sampleBot worldWithGone checkpointOnePosted).2.model.KnownDisturbances.index
        "d2").KnownStatuses
      = (checkpointOnePosted.KnownDisturbances.index "d2").KnownStatuses
        ++ resultsOf "d2" (tick sampleLib sampleBot worldWithGone checkpointOnePosted).2.trace :=
  ⟨by decide,
   (threading_is_a_linear_chain sampleLib sampleBot worldWithGone checkpointOnePosted).2.2
     "d2" (by decide)⟩

end DisturbancesBsky
